import Mathlib

/-!
# Watch-party server: room state, host election and event routing

A shallow embedding of `src/server.js`.

* A JavaScript `Map` is an association list in insertion order.  `get`, `has`,
  `set` and `delete` are `JMap.get`, `JMap.has`, `JMap.set` and `JMap.delete`;
  `set` on a present key replaces the value in place (the key keeps its
  position), on an absent key it appends.
* The handlers registered on a socket become the function `handle`, which takes
  the readings of the environment (`Date.now()`, the formatted clock,
  `Math.random()`), the id of the sending socket, the inbound event and the
  registry `rooms`, and returns the new registry together with the list of
  calls made to the transport (`socket.join`, `socket.emit`,
  `socket.to(x).emit`, `io.to(x).emit`) in program order.
* A JavaScript number is carried by its exact rational value.  Times are only
  stored and relayed.  The one arithmetic operation of the program, the product
  `Math.random() * colors.length`, is rounded to the nearest binary64 number,
  ties to even, by `roundToDouble`.
* `console.log` is not modelled; payloads are well-formed (every destructured
  field is present).
-/

namespace WatchParty

/-- Socket ids (`socket.id`). -/
abbrev ConnId := String

/-- Room identifiers (`roomId`). -/
abbrev RoomId := String

/-! ## JavaScript `Map` in insertion order -/

/-- Entries of a `Map`, oldest insertion first. -/
abbrev JMap (κ : Type) (α : Type) := List (κ × α)

namespace JMap

variable {κ α : Type} [DecidableEq κ]

/-- The keys, as `Map.prototype.keys()` iterates them. -/
def keys (m : JMap κ α) : List κ := m.map Prod.fst

/-- The values, as `Map.prototype.values()` iterates them. -/
def values (m : JMap κ α) : List α := m.map Prod.snd

/-- Lookup `Map.prototype.get`, with `none` for `undefined`. -/
def get (m : JMap κ α) (k : κ) : Option α :=
  match m with
  | [] => none
  | (k', v) :: rest => if k' = k then some v else get rest k

/-- Membership test `Map.prototype.has`. -/
def has (m : JMap κ α) (k : κ) : Bool := (get m k).isSome

/-- Insertion `Map.prototype.set`: replace in place when the key is present, else append. -/
def set (m : JMap κ α) (k : κ) (v : α) : JMap κ α :=
  match m with
  | [] => [(k, v)]
  | (k', v') :: rest => if k' = k then (k, v) :: rest else (k', v') :: set rest k v

/-- Removal `Map.prototype.delete`. -/
def delete (m : JMap κ α) (k : κ) : JMap κ α :=
  m.filter (fun e => decide (e.1 ≠ k))

/-- Mutation of the object stored under `k` through a reference obtained by `get`. -/
def modify (m : JMap κ α) (k : κ) (f : α → α) : JMap κ α :=
  match m with
  | [] => []
  | (k', v) :: rest => if k' = k then (k', f v) :: rest else (k', v) :: modify rest k f

/-- Number of entries, `Map.prototype.size`. -/
def size (m : JMap κ α) : Nat := m.length

/-- A well-formed `Map` has no repeated key. -/
def WF (m : JMap κ α) : Prop := (keys m).Nodup

end JMap

/-! ## Data model -/

/-- The member record stored by `Room.addUser`. -/
structure User where
  id : ConnId
  username : String
  isHost : Bool
  micMuted : Bool
  avatar : Option String
  deriving DecidableEq, Repr

/-- The field `videoState` of a room. -/
structure VideoState where
  url : String
  playing : Bool
  currentTime : ℚ
  lastUpdate : Nat
  deriving DecidableEq, Repr

/-- The object built by the `chat-message` handler. -/
structure ChatMessage where
  id : Nat
  username : String
  text : String
  timestamp : String
  avatar : Option String
  deriving DecidableEq, Repr

/-- Class `Room`. -/
structure Room where
  id : RoomId
  users : JMap ConnId User
  host : Option ConnId
  videoState : VideoState
  messages : List ChatMessage
  deriving DecidableEq, Repr

/-- The global `rooms` map. -/
abbrev Registry := JMap RoomId Room

/-- Readings of the environment taken while one event is handled. -/
structure Env where
  now : Nat
  clock : String
  random : ℚ
  deriving DecidableEq, Repr

/-! ## Class `Room` -/

/-- The palette `colors` of `getRandomAvatar`. -/
def colors : List String := ["#7289da", "#43b581", "#faa61a", "#f04747", "#9b59b6"]

/-- Number of binary digits of `n`, by repeated halving; `fuel` bounds the number of halvings
(`fuel = n` is always enough). -/
def bitLength : Nat → Nat → Nat
  | 0, _ => 0
  | fuel + 1, n => if n = 0 then 0 else bitLength fuel (n / 2) + 1

/-- Difference of the bit lengths of numerator and denominator of `x`: for `x ≠ 0` the binary
exponent of `|x|` is this number or one less. -/
def roughExponent (x : ℚ) : Int :=
  (bitLength x.num.natAbs x.num.natAbs : Int) - (bitLength x.den x.den : Int)

/-- The binary exponent of `x ≠ 0`: the integer `e` with `2 ^ e ≤ |x| < 2 ^ (e + 1)`. -/
def binaryExponent (x : ℚ) : Int :=
  if (2 : ℚ) ^ roughExponent x ≤ |x| then roughExponent x else roughExponent x - 1

/-- The exponent of the unit in the last place of the binary64 numbers around `x ≠ 0`: 52 below
the binary exponent (53 significant bits), and never below -1074 (subnormal numbers). -/
def ulpExponent (x : ℚ) : Int := max (binaryExponent x - 52) (-1074)

/-- Rounding to the nearest integer, ties to the even one. -/
def roundHalfEven (y : ℚ) : Int :=
  if y - (Int.floor y : ℚ) < 1 / 2 then Int.floor y
  else if 1 / 2 < y - (Int.floor y : ℚ) then Int.floor y + 1
  else if Int.floor y % 2 = 0 then Int.floor y
  else Int.floor y + 1

/-- The binary64 number nearest to the real `x`, ties to even: the IEEE 754 rounding that a
JavaScript arithmetic operation applies to its exact result. Magnitudes of `2 ^ 1024` and
more, which round to an infinity, do not arise from a product with a draw below 1. -/
def roundToDouble (x : ℚ) : ℚ :=
  if x = 0 then 0
  else (roundHalfEven (x / (2 : ℚ) ^ ulpExponent x) : ℚ) * (2 : ℚ) ^ ulpExponent x

/-- The index `Math.floor(Math.random() * colors.length)`, for the draw `raw` (the exact value
of the binary64 number returned by `Math.random()`): the floor of the binary64 product. -/
def avatarIndex (raw : ℚ) : Int :=
  Int.floor (roundToDouble (raw * (colors.length : ℚ)))

/-- Method `Room.getRandomAvatar`, for the draw `raw`; `none` is `undefined` (an index outside
the array). -/
def Room.getRandomAvatar (raw : ℚ) : Option String :=
  if avatarIndex raw < 0 then none else colors.get? (avatarIndex raw).toNat

/-- The constructor `new Room(id)`, with `now` the reading of `Date.now()`. -/
def Room.new (id : RoomId) (now : Nat) : Room :=
  { id := id
    users := []
    host := none
    videoState := { url := "", playing := false, currentTime := 0, lastUpdate := now }
    messages := [] }

/-- Method `Room.addUser`: the room after the call and the returned `this.users.get(socketId)`.
The flag `isHost` is computed from the host pointer as it is before the call. -/
def Room.addUser (room : Room) (socketId : ConnId) (username : String) (raw : ℚ) :
    Room × Option User :=
  let users := room.users.set socketId
    { id := socketId
      username := username
      isHost := decide (room.host = none)
      micMuted := false
      avatar := Room.getRandomAvatar raw }
  let host := if room.host = none then some socketId else room.host
  ({ room with users := users, host := host }, users.get socketId)

/-- Method `Room.removeUser`. The election runs only under the guard `this.host === socketId &&
this.users.size > 0`; the new host is `this.users.keys().next().value`, whose record gets
`isHost = true`. Under that guard the key iterator is never exhausted (the `none` branch). -/
def Room.removeUser (room : Room) (socketId : ConnId) : Room :=
  let users := room.users.delete socketId
  if room.host = some socketId ∧ users.size > 0 then
    match users.keys.head? with
    | some h =>
      { room with users := users.modify h (fun u => { u with isHost := true }), host := some h }
    | none => { room with users := users, host := none }
  else
    { room with users := users }

/-! ## Events and transport calls -/

/-- The six relayed signaling kinds. -/
inductive SignalKind where
  | webrtcOffer
  | webrtcAnswer
  | webrtcIceCandidate
  | screenShareOffer
  | screenShareAnswer
  | screenShareIceCandidate
  deriving DecidableEq, Repr

/-- Inbound events with their payload fields. -/
inductive Inbound where
  | joinRoom (roomId : RoomId) (username : String)
  | videoUrlChange (roomId : RoomId) (url : String)
  | videoPlay (roomId : RoomId) (currentTime : ℚ)
  | videoPause (roomId : RoomId) (currentTime : ℚ)
  | videoSeek (roomId : RoomId) (currentTime : ℚ)
  | chatMessage (roomId : RoomId) (message : String)
  | toggleMic (roomId : RoomId) (muted : Bool)
  | signal (kind : SignalKind) (roomId : RoomId) (target : ConnId) (body : String)
  | screenShareStopped (roomId : RoomId)
  | disconnect
  deriving DecidableEq, Repr

/-- Outbound events with their payloads. -/
inductive OutEvent where
  | roomState (videoState : VideoState) (users : List User) (messages : List ChatMessage)
      (userId : ConnId)
  | userJoined (user : Option User)
  | error (message : String)
  | videoUrlChanged (videoState : VideoState)
  | videoPlay (currentTime : ℚ)
  | videoPause (currentTime : ℚ)
  | videoSeek (currentTime : ℚ)
  | chatMessage (message : ChatMessage)
  | userMicToggle (userId : ConnId) (muted : Bool)
  | signal (kind : SignalKind) (sender : ConnId) (body : String)
  | screenShareStopped
  | userLeft (userId : ConnId) (newHost : Option ConnId)
  deriving DecidableEq, Repr

/-- Who an emitted event is addressed to. -/
inductive Scope where
  /-- `socket.emit`: the sending socket only. -/
  | self (s : ConnId)
  /-- `socket.to(group).emit`: the sockets of `group` other than the sender `s`. -/
  | others (group : String) (s : ConnId)
  /-- `io.to(group).emit`: every socket of `group`. -/
  | everyone (group : String)
  deriving DecidableEq, Repr

/-- One call to the transport. -/
inductive Effect where
  | join (s : ConnId) (roomId : RoomId)
  | emit (scope : Scope) (event : OutEvent)
  deriving DecidableEq, Repr

/-- The text sent to a sender who may not change the video. -/
def hostOnlyMessage : String := "Solo el host puede cambiar el video"

/-! ## Handlers -/

/-- Handler of `join-room`. -/
def onJoinRoom (env : Env) (s : ConnId) (roomId : RoomId) (username : String)
    (rooms : Registry) : Registry × List Effect :=
  let rooms1 := if rooms.has roomId then rooms else rooms.set roomId (Room.new roomId env.now)
  match rooms1.get roomId with
  | none => (rooms1, [Effect.join s roomId])
  | some room =>
    let r := room.addUser s username env.random
    (rooms1.set roomId r.1,
      [Effect.join s roomId,
       Effect.emit (Scope.self s)
         (OutEvent.roomState r.1.videoState r.1.users.values r.1.messages s),
       Effect.emit (Scope.others roomId s) (OutEvent.userJoined r.2)])

/-- Handler of `video-url-change`. -/
def onVideoUrlChange (env : Env) (s : ConnId) (roomId : RoomId) (url : String)
    (rooms : Registry) : Registry × List Effect :=
  match rooms.get roomId with
  | none => (rooms, [])
  | some room =>
    match room.users.get s with
    | none => (rooms, [Effect.emit (Scope.self s) (OutEvent.error hostOnlyMessage)])
    | some user =>
      if user.isHost = false then
        (rooms, [Effect.emit (Scope.self s) (OutEvent.error hostOnlyMessage)])
      else
        let vs : VideoState :=
          { url := url, currentTime := 0, playing := false, lastUpdate := env.now }
        (rooms.set roomId { room with videoState := vs },
          [Effect.emit (Scope.everyone roomId) (OutEvent.videoUrlChanged vs)])

/-- Handler of `video-play`. -/
def onVideoPlay (env : Env) (s : ConnId) (roomId : RoomId) (currentTime : ℚ)
    (rooms : Registry) : Registry × List Effect :=
  match rooms.get roomId with
  | none => (rooms, [])
  | some room =>
    let vs : VideoState :=
      { room.videoState with playing := true, currentTime := currentTime, lastUpdate := env.now }
    (rooms.set roomId { room with videoState := vs },
      [Effect.emit (Scope.others roomId s) (OutEvent.videoPlay currentTime)])

/-- Handler of `video-pause`. -/
def onVideoPause (env : Env) (s : ConnId) (roomId : RoomId) (currentTime : ℚ)
    (rooms : Registry) : Registry × List Effect :=
  match rooms.get roomId with
  | none => (rooms, [])
  | some room =>
    let vs : VideoState :=
      { room.videoState with playing := false, currentTime := currentTime, lastUpdate := env.now }
    (rooms.set roomId { room with videoState := vs },
      [Effect.emit (Scope.others roomId s) (OutEvent.videoPause currentTime)])

/-- Handler of `video-seek`. -/
def onVideoSeek (env : Env) (s : ConnId) (roomId : RoomId) (currentTime : ℚ)
    (rooms : Registry) : Registry × List Effect :=
  match rooms.get roomId with
  | none => (rooms, [])
  | some room =>
    let vs : VideoState :=
      { room.videoState with currentTime := currentTime, lastUpdate := env.now }
    (rooms.set roomId { room with videoState := vs },
      [Effect.emit (Scope.others roomId s) (OutEvent.videoSeek currentTime)])

/-- The history after `room.messages.push(msg)` and the `shift()` guarded by `length > 100`. -/
def pushMessage (messages : List ChatMessage) (msg : ChatMessage) : List ChatMessage :=
  let pushed := messages ++ [msg]
  if pushed.length > 100 then pushed.tail else pushed

/-- The object `chatMessage` built by the `chat-message` handler for the member record `user`. -/
def mkChatMessage (env : Env) (user : User) (message : String) : ChatMessage :=
  { id := env.now
    username := user.username
    text := message
    timestamp := env.clock
    avatar := user.avatar }

/-- Handler of `chat-message`. -/
def onChatMessage (env : Env) (s : ConnId) (roomId : RoomId) (message : String)
    (rooms : Registry) : Registry × List Effect :=
  match rooms.get roomId with
  | none => (rooms, [])
  | some room =>
    match room.users.get s with
    | none => (rooms, [])
    | some user =>
      let chatMessage := mkChatMessage env user message
      (rooms.set roomId { room with messages := pushMessage room.messages chatMessage },
        [Effect.emit (Scope.everyone roomId) (OutEvent.chatMessage chatMessage)])

/-- Handler of `toggle-mic`. -/
def onToggleMic (s : ConnId) (roomId : RoomId) (muted : Bool)
    (rooms : Registry) : Registry × List Effect :=
  match rooms.get roomId with
  | none => (rooms, [])
  | some room =>
    match room.users.get s with
    | none => (rooms, [])
    | some _ =>
      (rooms.set roomId
          { room with users := room.users.modify s (fun u => { u with micMuted := muted }) },
        [Effect.emit (Scope.everyone roomId) (OutEvent.userMicToggle s muted)])

/-- Handlers of the six signaling events: `socket.to(to).emit(kind, \x7bfrom, body\x7d)`. -/
def onSignal (s : ConnId) (kind : SignalKind) (target : ConnId) (body : String)
    (rooms : Registry) : Registry × List Effect :=
  (rooms, [Effect.emit (Scope.others target s) (OutEvent.signal kind s body)])

/-- Handler of `screen-share-stopped`. -/
def onScreenShareStopped (s : ConnId) (roomId : RoomId)
    (rooms : Registry) : Registry × List Effect :=
  (rooms, [Effect.emit (Scope.others roomId s) OutEvent.screenShareStopped])

/-- Handler of `disconnect`: the body of `rooms.forEach`, entry by entry in insertion order.
An entry whose room becomes empty is deleted, the others stay in place. -/
def onDisconnect (s : ConnId) : Registry → Registry × List Effect
  | [] => ([], [])
  | (roomId, room) :: rest =>
    let r := onDisconnect s rest
    if room.users.has s then
      let room1 := room.removeUser s
      let left := Effect.emit (Scope.others roomId s) (OutEvent.userLeft s room1.host)
      if room1.users.size = 0 then (r.1, left :: r.2)
      else ((roomId, room1) :: r.1, left :: r.2)
    else ((roomId, room) :: r.1, r.2)

/-- Dispatch of one inbound event from socket `s`. -/
def handle (env : Env) (s : ConnId) (ev : Inbound) (rooms : Registry) :
    Registry × List Effect :=
  match ev with
  | Inbound.joinRoom roomId username => onJoinRoom env s roomId username rooms
  | Inbound.videoUrlChange roomId url => onVideoUrlChange env s roomId url rooms
  | Inbound.videoPlay roomId t => onVideoPlay env s roomId t rooms
  | Inbound.videoPause roomId t => onVideoPause env s roomId t rooms
  | Inbound.videoSeek roomId t => onVideoSeek env s roomId t rooms
  | Inbound.chatMessage roomId message => onChatMessage env s roomId message rooms
  | Inbound.toggleMic roomId muted => onToggleMic s roomId muted rooms
  | Inbound.signal kind _ target body => onSignal s kind target body rooms
  | Inbound.screenShareStopped roomId => onScreenShareStopped s roomId rooms
  | Inbound.disconnect => onDisconnect s rooms

/-- One item of the inbound queue: environment readings, sender, event. -/
structure Input where
  env : Env
  sender : ConnId
  event : Inbound
  deriving DecidableEq, Repr

/-- The registry after processing a queue of inputs, one at a time, from `rooms`. -/
def run (rooms : Registry) : List Input → Registry
  | [] => rooms
  | i :: rest => run (handle i.env i.sender i.event rooms).1 rest

/-- The registries reachable from the empty registry. -/
inductive Reachable : Registry → Prop where
  | init : Reachable []
  | step (rooms : Registry) (env : Env) (s : ConnId) (ev : Inbound) :
      Reachable rooms → Reachable (handle env s ev rooms).1

end WatchParty

/-! ## Invariants and observations used in the statements -/

namespace WatchParty

/-- What holds of every room stored in a reachable registry. -/
structure RoomInv (room : Room) : Prop where
  nonempty : room.users ≠ []
  wf : room.users.WF
  host_mem : ∃ h, room.host = some h ∧ h ∈ room.users.keys
  flags : ∀ k u, (k, u) ∈ room.users → u.isHost = true → room.host = some k
  ids : ∀ k u, (k, u) ∈ room.users → u.id = k
  bounded : room.messages.length ≤ 100

/-- What holds of every reachable registry. -/
structure RegInv (rooms : Registry) : Prop where
  wf : rooms.WF
  rooms_ok : ∀ rid room, (rid, room) ∈ rooms → RoomInv room ∧ room.id = rid

/-- The members of `room` whose `isHost` flag is set. -/
def Room.flaggedHosts (room : Room) : List User :=
  room.users.values.filter (fun u => u.isHost)

/-- What `disconnect` of `s` leaves of one registry entry: the entry itself when `s` is not a
member, nothing when `s` was the last member, else the entry with `s` removed. -/
def entryAfterLeave (s : ConnId) (e : RoomId × Room) : Option (RoomId × Room) :=
  if e.2.users.has s then
    if (e.2.removeUser s).users = [] then none else some (e.1, e.2.removeUser s)
  else some e

/-- The `user-left` call made for a registry entry that has `s` as a member. -/
def leaveEffect (s : ConnId) (e : RoomId × Room) : Effect :=
  Effect.emit (Scope.others e.1 s) (OutEvent.userLeft s (e.2.removeUser s).host)

/-- The chat message accepted for room `rid` when input `i` arrives at registry `rooms`:
a `chat-message` for `rid` whose sender is then a member of that room. -/
def acceptedMessage (rid : RoomId) (rooms : Registry) (i : Input) : Option ChatMessage :=
  match i.event with
  | Inbound.chatMessage roomId message =>
    if roomId = rid then
      match rooms.get rid with
      | none => none
      | some room =>
        match room.users.get i.sender with
        | none => none
        | some user => some (mkChatMessage i.env user message)
    else none
  | _ => none

/-- The chat messages accepted for room `rid` since that room was last created, in arrival
order, after the queue of inputs is processed from `rooms`; `log` holds those accepted so far.
The log is emptied whenever the room is not in the registry after an input. -/
def acceptedSince (rid : RoomId) (rooms : Registry) (log : List ChatMessage) :
    List Input → List ChatMessage
  | [] => log
  | i :: rest =>
    let rooms1 := (handle i.env i.sender i.event rooms).1
    let log1 := match acceptedMessage rid rooms i with
      | some m => log ++ [m]
      | none => log
    acceptedSince rid rooms1 (if rooms1.has rid then log1 else []) rest

/-- The chat history stored for room `rid`, empty when the registry has no such room. -/
def roomMessages (rooms : Registry) (rid : RoomId) : List ChatMessage :=
  match rooms.get rid with
  | some room => room.messages
  | none => []

/-- The last `n` entries of a list. -/
def lastN {α : Type} (n : Nat) (l : List α) : List α := l.drop (l.length - n)

/-- The transport group an emitted event is addressed to; `none` for an event emitted to the
sending socket alone. -/
def Scope.group : Scope → Option String
  | Scope.self _ => none
  | Scope.others g _ => some g
  | Scope.everyone g => some g

/-- The transport group a call to the transport concerns. -/
def Effect.group : Effect → Option String
  | Effect.join _ roomId => some roomId
  | Effect.emit scope _ => scope.group

/-- The `roomId` field of an inbound event handled by a room-scoped handler (`join-room`,
`video-url-change`, the three playback events, `chat-message`, `toggle-mic`,
`screen-share-stopped`); `none` for the signaling relay and for `disconnect`. -/
def Inbound.roomScoped : Inbound → Option RoomId
  | Inbound.joinRoom roomId _ => some roomId
  | Inbound.videoUrlChange roomId _ => some roomId
  | Inbound.videoPlay roomId _ => some roomId
  | Inbound.videoPause roomId _ => some roomId
  | Inbound.videoSeek roomId _ => some roomId
  | Inbound.chatMessage roomId _ => some roomId
  | Inbound.toggleMic roomId _ => some roomId
  | Inbound.screenShareStopped roomId => some roomId
  | Inbound.signal _ _ _ _ => none
  | Inbound.disconnect => none

/-- The values `Math.random()` can return: `raw` is the exact value of a nonnegative binary64
number with exponent at most 0, that is `m / 2 ^ k` with a significand `m` of at most 53 bits
and `k ≤ 1074`. Every binary64 number in `[0, 1)` has this form. -/
def IsDraw (raw : ℚ) : Prop :=
  ∃ m k : ℕ, m < 2 ^ 53 ∧ k ≤ 1074 ∧ raw = (m : ℚ) / (2 : ℚ) ^ k

/-- A room has exactly one member flagged as host, and the host pointer names that member. -/
def ExactlyOneHost (room : Room) : Prop :=
  ∃ u, room.flaggedHosts = [u] ∧ room.host = some u.id

/-! ### Concrete inputs used to evaluate the handlers -/

/-- Environment readings of a first event. -/
def env0 : Env := { now := 1000, clock := "20:15", random := 0 }

/-- Environment readings of a later event. -/
def env1 : Env := { now := 2000, clock := "20:16", random := 1 / 2 }

/-- Connection "A" joins room "r1". -/
def joinA : Input := { env := env0, sender := "A", event := Inbound.joinRoom "r1" "ana" }

/-- Connection "B" joins room "r1". -/
def joinB : Input := { env := env1, sender := "B", event := Inbound.joinRoom "r1" "ben" }

/-- Connection "A" sends `join-room` for room "r1" once more. -/
def rejoinA : Input := { env := env1, sender := "A", event := Inbound.joinRoom "r1" "ana" }

/-- Connection "A" sends the chat message "hi" to room "r1" at time `n`. -/
def chatA (n : Nat) : Input :=
  { env := { now := n, clock := "20:15", random := 0 }
    sender := "A"
    event := Inbound.chatMessage "r1" "hi" }

/-- Connection "A" joins room "r1" and then sends 101 chat messages, at times 0 to 100. -/
def chatFlood : List Input := joinA :: (List.range 101).map chatA

/-- Connection "A" disconnects. -/
def leaveA : Input := { env := env1, sender := "A", event := Inbound.disconnect }

/-- Connection "B" disconnects. -/
def leaveB : Input := { env := env1, sender := "B", event := Inbound.disconnect }

/-- Connection "A" asks for the video "x" in room "r1". -/
def urlA : Input := { env := env1, sender := "A", event := Inbound.videoUrlChange "r1" "x" }

/-- Connection "B" reports `video-play` at 5 seconds in room "r1". -/
def playB : Input := { env := env1, sender := "B", event := Inbound.videoPlay "r1" 5 }

/-- Connection "B" sends `join-room` for room "r1" once more. -/
def rejoinB : Input := { env := env1, sender := "B", event := Inbound.joinRoom "r1" "ben" }

/-- The record of "A" in `duoRoom`: the first member, flagged as host. -/
def hostRecordA : User :=
  { id := "A", username := "ana", isHost := true, micMuted := false, avatar := some "#7289da" }

/-- Connection "A" also joins room "r2". -/
def joinA2 : Input := { env := env1, sender := "A", event := Inbound.joinRoom "r2" "ana" }

/-- The binary64 number written `0.6`, namely `5404319552844595 / 2 ^ 53`. -/
def draw06 : ℚ := 5404319552844595 / 9007199254740992

/-- The room built by `new Room("r1")` followed by `addUser("A", "ana")`. -/
def soloRoom : Room := ((Room.new "r1" 1000).addUser "A" "ana" 0).1

/-- The room `soloRoom` after `addUser("B", "ben")`. -/
def duoRoom : Room := (soloRoom.addUser "B" "ben" (1 / 2)).1

end WatchParty

/-! ## Facts about `JMap` -/

namespace WatchParty

namespace JMap

set_option linter.unusedSectionVars false

variable {κ α : Type} [DecidableEq κ]

theorem keys_cons (e : κ × α) (m : JMap κ α) : keys (e :: m) = e.1 :: keys m := rfl

theorem mem_keys_of_mem {m : JMap κ α} {k : κ} {v : α} (h : (k, v) ∈ m) : k ∈ keys m :=
  List.mem_map.2 ⟨(k, v), h, rfl⟩

theorem exists_mem_of_mem_keys {m : JMap κ α} {k : κ} (h : k ∈ keys m) : ∃ v, (k, v) ∈ m := by
  obtain ⟨⟨k', v⟩, hm, hk⟩ := List.mem_map.1 h
  exact ⟨v, by cases hk; exact hm⟩

theorem get_eq_none_iff (m : JMap κ α) (k : κ) : get m k = none ↔ k ∉ keys m := by
  induction m with
  | nil => simp [get, keys]
  | cons e rest ih =>
    obtain ⟨k', v⟩ := e
    by_cases h : k' = k
    · simp [get, keys, h]
    · have h' : ¬ k = k' := fun e => h e.symm
      simp [get, h, h', keys_cons, ih]

theorem mem_of_get {m : JMap κ α} {k : κ} {v : α} (h : get m k = some v) : (k, v) ∈ m := by
  induction m with
  | nil => simp [get] at h
  | cons e rest ih =>
    obtain ⟨k', v'⟩ := e
    by_cases hk : k' = k
    · simp [get, hk] at h
      simp [hk, h]
    · simp [get, hk] at h
      exact List.mem_cons_of_mem _ (ih h)

theorem get_of_mem {m : JMap κ α} {k : κ} {v : α} (hwf : WF m) (h : (k, v) ∈ m) :
    get m k = some v := by
  induction m with
  | nil => simp at h
  | cons e rest ih =>
    obtain ⟨k', v'⟩ := e
    have hnd : k' ∉ keys rest ∧ (keys rest).Nodup := List.nodup_cons.1 hwf
    rcases List.mem_cons.1 h with heq | hmem
    · cases heq
      simp [get]
    · have hne : ¬ k' = k := by
        intro e
        exact hnd.1 (e ▸ mem_keys_of_mem hmem)
      simp only [get, if_neg hne]
      exact ih hnd.2 hmem

theorem has_eq_true_iff (m : JMap κ α) (k : κ) : has m k = true ↔ k ∈ keys m := by
  have h := get_eq_none_iff m k
  unfold has
  cases hg : get m k with
  | none => simp [hg] at h; simp [h]
  | some v => simp [hg] at h; simp [h]

theorem has_eq_false_iff (m : JMap κ α) (k : κ) : has m k = false ↔ k ∉ keys m := by
  rw [← has_eq_true_iff]; simp

theorem get_set_self (m : JMap κ α) (k : κ) (v : α) : get (set m k v) k = some v := by
  induction m with
  | nil => simp [set, get]
  | cons e rest ih =>
    obtain ⟨k', v'⟩ := e
    by_cases h : k' = k
    · simp [set, get, h]
    · simp [set, get, h, ih]

theorem get_set_ne (m : JMap κ α) {k k' : κ} (v : α) (hne : k' ≠ k) :
    get (set m k v) k' = get m k' := by
  induction m with
  | nil =>
    have : ¬ k = k' := fun e => hne e.symm
    simp [set, get, this]
  | cons e rest ih =>
    obtain ⟨k₀, v₀⟩ := e
    by_cases h : k₀ = k
    · have : ¬ k = k' := fun e => hne e.symm
      have h2 : ¬ k₀ = k' := fun e => hne (e ▸ h.symm ▸ rfl)
      simp [set, get, h, this]
    · by_cases h2 : k₀ = k'
      · subst h2
        simp [set, get, h]
      · simp [set, get, h, h2, ih]

theorem keys_set_of_mem (m : JMap κ α) {k : κ} (v : α) (h : k ∈ keys m) :
    keys (set m k v) = keys m := by
  induction m with
  | nil => simp [keys] at h
  | cons e rest ih =>
    obtain ⟨k', v'⟩ := e
    by_cases hk : k' = k
    · simp [set, hk, keys_cons]
    · have hr : k ∈ keys rest := by
        rcases List.mem_cons.1 h with h1 | h1
        · exact absurd h1.symm hk
        · exact h1
      simp [set, hk, keys_cons, ih hr]

theorem keys_set_of_not_mem (m : JMap κ α) {k : κ} (v : α) (h : k ∉ keys m) :
    keys (set m k v) = keys m ++ [k] := by
  induction m with
  | nil => simp [set, keys]
  | cons e rest ih =>
    obtain ⟨k', v'⟩ := e
    have hk : ¬ k' = k := fun e => h (by simp [keys_cons, e])
    have hr : k ∉ keys rest := fun hm => h (List.mem_cons_of_mem _ hm)
    simp [set, hk, keys_cons, ih hr]

theorem mem_set {m : JMap κ α} {k : κ} {v : α} {e : κ × α} (h : e ∈ set m k v) :
    e ∈ m ∨ e = (k, v) := by
  induction m with
  | nil => right; simpa [set] using h
  | cons e' rest ih =>
    obtain ⟨k', v'⟩ := e'
    by_cases hk : k' = k
    · simp only [set, if_pos hk] at h
      rcases List.mem_cons.1 h with h1 | h1
      · exact Or.inr h1
      · exact Or.inl (List.mem_cons_of_mem _ h1)
    · simp only [set, if_neg hk] at h
      rcases List.mem_cons.1 h with h1 | h1
      · left; subst h1; exact List.mem_cons_self _ _
      · rcases ih h1 with h2 | h2
        · exact Or.inl (List.mem_cons_of_mem _ h2)
        · exact Or.inr h2

theorem keys_delete (m : JMap κ α) (k : κ) :
    keys (delete m k) = (keys m).filter (fun x => decide (x ≠ k)) := by
  induction m with
  | nil => rfl
  | cons e rest ih =>
    obtain ⟨k', v'⟩ := e
    by_cases hk : k' = k
    · simp [delete, keys_cons, hk] at ih ⊢
      exact ih
    · simp [delete, keys_cons, hk] at ih ⊢
      exact ih

theorem mem_delete {m : JMap κ α} {k : κ} {e : κ × α} :
    e ∈ delete m k ↔ e ∈ m ∧ e.1 ≠ k := by
  simp [delete]

theorem not_mem_keys_delete (m : JMap κ α) (k : κ) : k ∉ keys (delete m k) := by
  rw [keys_delete]; simp

theorem wf_delete {m : JMap κ α} (k : κ) (h : WF m) : WF (delete m k) := by
  unfold WF at *
  rw [keys_delete]
  exact h.filter _

theorem delete_eq_self_of_not_mem {m : JMap κ α} {k : κ} (h : k ∉ keys m) : delete m k = m := by
  unfold delete
  rw [List.filter_eq_self]
  intro e he
  have : e.1 ≠ k := fun hk => h (hk ▸ List.mem_map.2 ⟨e, he, rfl⟩)
  simpa using this

theorem get_cons (k₀ : κ) (v₀ : α) (m : JMap κ α) (k : κ) :
    get ((k₀, v₀) :: m) k = if k₀ = k then some v₀ else get m k := rfl

theorem delete_cons (k₀ : κ) (v₀ : α) (m : JMap κ α) (k : κ) :
    delete ((k₀, v₀) :: m) k = if k₀ = k then delete m k else (k₀, v₀) :: delete m k := by
  by_cases h : k₀ = k <;> simp [delete, h]

theorem modify_cons (k₀ : κ) (v₀ : α) (m : JMap κ α) (k : κ) (f : α → α) :
    modify ((k₀, v₀) :: m) k f =
      if k₀ = k then (k₀, f v₀) :: m else (k₀, v₀) :: modify m k f := rfl

theorem get_delete_ne (m : JMap κ α) {k k' : κ} (hne : k' ≠ k) :
    get (delete m k) k' = get m k' := by
  induction m with
  | nil => rfl
  | cons e rest ih =>
    obtain ⟨k₀, v₀⟩ := e
    rw [delete_cons]
    by_cases h : k₀ = k
    · have h2 : ¬ k₀ = k' := fun e => hne (e ▸ h)
      rw [if_pos h, get_cons, if_neg h2, ih]
    · rw [if_neg h, get_cons, get_cons, ih]

theorem keys_modify (m : JMap κ α) (k : κ) (f : α → α) : keys (modify m k f) = keys m := by
  induction m with
  | nil => rfl
  | cons e rest ih =>
    obtain ⟨k', v'⟩ := e
    by_cases hk : k' = k
    · simp [modify, hk, keys_cons]
    · simp [modify, hk, keys_cons, ih]

theorem mem_modify {m : JMap κ α} {k : κ} {f : α → α} {e : κ × α} (h : e ∈ modify m k f) :
    e ∈ m ∨ ∃ v, (k, v) ∈ m ∧ e = (k, f v) := by
  induction m with
  | nil => simp [modify] at h
  | cons e' rest ih =>
    obtain ⟨k', v'⟩ := e'
    by_cases hk : k' = k
    · simp only [modify, if_pos hk] at h
      rcases List.mem_cons.1 h with h1 | h1
      · right; exact ⟨v', by simp [hk], by rw [h1, hk]⟩
      · exact Or.inl (List.mem_cons_of_mem _ h1)
    · simp only [modify, if_neg hk] at h
      rcases List.mem_cons.1 h with h1 | h1
      · left; subst h1; exact List.mem_cons_self _ _
      · rcases ih h1 with h2 | ⟨v, h2, h3⟩
        · exact Or.inl (List.mem_cons_of_mem _ h2)
        · exact Or.inr ⟨v, List.mem_cons_of_mem _ h2, h3⟩

theorem get_modify_self (m : JMap κ α) (k : κ) (f : α → α) :
    get (modify m k f) k = (get m k).map f := by
  induction m with
  | nil => rfl
  | cons e rest ih =>
    obtain ⟨k', v'⟩ := e
    by_cases hk : k' = k
    · simp [modify, get, hk]
    · simp [modify, get, hk, ih]

theorem get_modify_ne (m : JMap κ α) {k k' : κ} (f : α → α) (hne : k' ≠ k) :
    get (modify m k f) k' = get m k' := by
  induction m with
  | nil => rfl
  | cons e rest ih =>
    obtain ⟨k₀, v₀⟩ := e
    rw [modify_cons]
    by_cases h : k₀ = k
    · have h2 : ¬ k₀ = k' := fun e => hne (e ▸ h)
      rw [if_pos h, get_cons, get_cons, if_neg h2, if_neg h2]
    · rw [if_neg h, get_cons, get_cons, ih]

theorem wf_set {m : JMap κ α} (k : κ) (v : α) (h : WF m) : WF (set m k v) := by
  unfold WF at *
  by_cases hk : k ∈ keys m
  · rw [keys_set_of_mem m v hk]; exact h
  · rw [keys_set_of_not_mem m v hk]
    exact List.Nodup.append h (List.nodup_singleton k) (by simpa using hk)

theorem set_set (m : JMap κ α) (k : κ) (v v' : α) : set (set m k v) k v' = set m k v' := by
  induction m with
  | nil => simp [set]
  | cons e rest ih =>
    obtain ⟨k₀, v₀⟩ := e
    by_cases h : k₀ = k
    · simp [set, h]
    · simp [set, h, ih]

theorem set_ne_nil (m : JMap κ α) (k : κ) (v : α) : set m k v ≠ [] := by
  cases m with
  | nil => simp [set]
  | cons e rest =>
    obtain ⟨k₀, v₀⟩ := e
    by_cases h : k₀ = k <;> simp [set, h]

theorem mem_keys_set (m : JMap κ α) (k : κ) (v : α) {k' : κ} (h : k' ∈ keys m) :
    k' ∈ keys (set m k v) := by
  by_cases hk : k ∈ keys m
  · rw [keys_set_of_mem m v hk]; exact h
  · rw [keys_set_of_not_mem m v hk]; exact List.mem_append_left _ h

theorem mem_keys_set_self (m : JMap κ α) (k : κ) (v : α) : k ∈ keys (set m k v) := by
  have h := get_set_self m k v
  by_contra hc
  rw [(get_eq_none_iff _ _).2 hc] at h
  exact Option.noConfusion h

theorem get_set (m : JMap κ α) (k k' : κ) (v : α) :
    get (set m k v) k' = if k' = k then some v else get m k' := by
  by_cases h : k' = k
  · rw [if_pos h, h, get_set_self]
  · rw [if_neg h, get_set_ne _ _ h]

theorem set_eq_append (m : JMap κ α) {k : κ} (v : α) (h : get m k = none) :
    set m k v = m ++ [(k, v)] := by
  induction m with
  | nil => rfl
  | cons e rest ih =>
    obtain ⟨k₀, v₀⟩ := e
    rw [get_cons] at h
    by_cases hk : k₀ = k
    · rw [if_pos hk] at h
      exact Option.noConfusion h
    · rw [if_neg hk] at h
      simp [set, hk, ih h]

theorem delete_set_self (m : JMap κ α) (k : κ) (v : α) : delete (set m k v) k = delete m k := by
  induction m with
  | nil => simp [set, delete]
  | cons e rest ih =>
    obtain ⟨k₀, v₀⟩ := e
    by_cases h : k₀ = k
    · simp [set, h, delete_cons]
    · simp [set, h, delete_cons, ih]

theorem wf_modify {m : JMap κ α} (k : κ) (f : α → α) (h : WF m) : WF (modify m k f) := by
  unfold WF at *
  rw [keys_modify]; exact h

end JMap

end WatchParty

/-! ## Facts about `Room` -/

namespace WatchParty

theorem Room.addUser_id (room : Room) (s : ConnId) (u : String) (raw : ℚ) :
    (room.addUser s u raw).1.id = room.id := rfl

theorem Room.addUser_messages (room : Room) (s : ConnId) (u : String) (raw : ℚ) :
    (room.addUser s u raw).1.messages = room.messages := rfl

theorem Room.addUser_videoState (room : Room) (s : ConnId) (u : String) (raw : ℚ) :
    (room.addUser s u raw).1.videoState = room.videoState := rfl

theorem Room.removeUser_id (room : Room) (s : ConnId) : (room.removeUser s).id = room.id := by
  unfold Room.removeUser
  simp only
  split
  · split <;> rfl
  · rfl

theorem Room.removeUser_messages (room : Room) (s : ConnId) :
    (room.removeUser s).messages = room.messages := by
  unfold Room.removeUser
  simp only
  split
  · split <;> rfl
  · rfl

theorem Room.removeUser_videoState (room : Room) (s : ConnId) :
    (room.removeUser s).videoState = room.videoState := by
  unfold Room.removeUser
  simp only
  split
  · split <;> rfl
  · rfl

theorem Room.removeUser_keys (room : Room) (s : ConnId) :
    (room.removeUser s).users.keys = (room.users.delete s).keys := by
  unfold Room.removeUser
  simp only
  split
  · split
    · simp [JMap.keys_modify]
    · rfl
  · rfl

/-- Adding a member to a freshly constructed room gives a room satisfying the invariant. -/
theorem Room.addUser_new_inv (rid : RoomId) (now : Nat) (s : ConnId) (u : String) (raw : ℚ) :
    RoomInv ((Room.new rid now).addUser s u raw).1 := by
  refine ⟨?_, ?_, ?_, ?_, ?_, ?_⟩
  · simp [Room.addUser, Room.new, JMap.set]
  · simp [Room.addUser, Room.new, JMap.set, JMap.WF, JMap.keys]
  · exact ⟨s, by simp [Room.addUser, Room.new], by simp [Room.addUser, Room.new, JMap.set, JMap.keys]⟩
  · intro k usr hm _
    simp [Room.addUser, Room.new, JMap.set] at hm ⊢
    exact hm.1.symm
  · intro k usr hm
    simp [Room.addUser, Room.new, JMap.set] at hm
    rw [hm.1, hm.2]
  · simp [Room.addUser, Room.new]

/-- Adding a member (new or already present) preserves the room invariant. -/
theorem Room.addUser_inv {room : Room} (h : RoomInv room) (s : ConnId) (u : String) (raw : ℚ) :
    RoomInv (room.addUser s u raw).1 := by
  obtain ⟨hst, hhost, hmem⟩ : ∃ hst, room.host = some hst ∧ hst ∈ room.users.keys := h.host_mem
  have hne : ¬ room.host = none := by rw [hhost]; simp
  refine ⟨?_, ?_, ?_, ?_, ?_, ?_⟩
  · exact JMap.set_ne_nil _ _ _
  · exact JMap.wf_set _ _ h.wf
  · refine ⟨hst, ?_, ?_⟩
    · simp [Room.addUser, hhost]
    · exact JMap.mem_keys_set _ _ _ hmem
  · intro k usr hm hflag
    have hm' : (k, usr) ∈ room.users.set s _ := hm
    rcases JMap.mem_set hm' with h1 | h1
    · have := h.flags k usr h1 hflag
      simp [Room.addUser, hne, this]
    · cases h1
      simp [hne] at hflag
  · intro k usr hm
    have hm' : (k, usr) ∈ room.users.set s _ := hm
    rcases JMap.mem_set hm' with h1 | h1
    · exact h.ids k usr h1
    · cases h1; rfl
  · exact h.bounded

theorem JMap.head?_keys_mem {κ α : Type} {m : JMap κ α} {k : κ}
    (h : (JMap.keys m).head? = some k) : k ∈ JMap.keys m := by
  cases m with
  | nil => simp [JMap.keys] at h
  | cons e rest =>
    simp [JMap.keys] at h
    simp [JMap.keys, h]

/-- Removing a member preserves the room invariant whenever a member remains. -/
theorem Room.removeUser_inv {room : Room} (h : RoomInv room) (s : ConnId)
    (hrem : (room.removeUser s).users ≠ []) : RoomInv (room.removeUser s) := by
  obtain ⟨hst, hhost, hmem⟩ : ∃ hst, room.host = some hst ∧ hst ∈ room.users.keys := h.host_mem
  have hkeys := Room.removeUser_keys room s
  have hdel : room.users.delete s ≠ [] := by
    intro hc
    rw [hc] at hkeys
    apply hrem
    cases hu : (room.removeUser s).users with
    | nil => rfl
    | cons e rest => rw [hu] at hkeys; simp [JMap.keys] at hkeys
  have hsize : JMap.size (room.users.delete s) > 0 := List.length_pos.2 hdel
  by_cases hs : hst = s
  · -- the host leaves: election
    subst hs
    obtain ⟨nh, hnh⟩ : ∃ nh, (room.users.delete hst).keys.head? = some nh := by
      cases hd : room.users.delete hst with
      | nil => exact absurd hd hdel
      | cons e rest => exact ⟨e.1, rfl⟩
    have heq : room.removeUser hst =
        { room with
          users := (room.users.delete hst).modify nh (fun u => { u with isHost := true })
          host := some nh } := by
      unfold Room.removeUser
      simp only [hhost, true_and, hsize, if_true, hnh]
    rw [heq]
    refine ⟨?_, ?_, ?_, ?_, ?_, ?_⟩
    · intro hc
      have hk := JMap.keys_modify (room.users.delete hst) nh (fun u => { u with isHost := true })
      simp only at hc
      rw [hc] at hk
      have : (room.users.delete hst).keys = [] := hk.symm
      rw [this] at hnh
      simp at hnh
    · exact JMap.wf_modify _ _ (JMap.wf_delete _ h.wf)
    · refine ⟨nh, rfl, ?_⟩
      simp only
      rw [JMap.keys_modify]
      exact JMap.head?_keys_mem hnh
    · intro k usr hm hflag
      simp only at hm ⊢
      rcases JMap.mem_modify hm with h1 | ⟨v, h1, h2⟩
      · have hd := JMap.mem_delete.1 h1
        have := h.flags k usr hd.1 hflag
        rw [hhost] at this
        exact absurd (Option.some.inj this).symm hd.2
      · cases h2; rfl
    · intro k usr hm
      simp only at hm
      rcases JMap.mem_modify hm with h1 | ⟨v, h1, h2⟩
      · exact h.ids k usr (JMap.mem_delete.1 h1).1
      · cases h2
        exact h.ids nh v (JMap.mem_delete.1 h1).1
    · exact h.bounded
  · -- someone else leaves (or a non-member is named): plain deletion
    have hne : ¬ (room.host = some s ∧ JMap.size (room.users.delete s) > 0) := by
      rw [hhost]
      intro hc
      exact hs (Option.some.inj hc.1)
    have heq : room.removeUser s = { room with users := room.users.delete s } := by
      unfold Room.removeUser
      simp only [if_neg hne]
    rw [heq]
    refine ⟨hdel, JMap.wf_delete _ h.wf, ?_, ?_, ?_, h.bounded⟩
    · refine ⟨hst, hhost, ?_⟩
      simp only
      rw [JMap.keys_delete]
      exact List.mem_filter.2 ⟨hmem, by simpa using hs⟩
    · intro k usr hm hflag
      exact h.flags k usr (JMap.mem_delete.1 hm).1 hflag
    · intro k usr hm
      exact h.ids k usr (JMap.mem_delete.1 hm).1

end WatchParty

/-! ## Preservation of the invariants by the handlers -/

namespace WatchParty

theorem pushMessage_length_le {messages : List ChatMessage} (h : messages.length ≤ 100)
    (msg : ChatMessage) : (pushMessage messages msg).length ≤ 100 := by
  unfold pushMessage
  simp only
  split
  · simp only [List.length_tail, List.length_append, List.length_singleton]
    omega
  · omega

theorem RoomInv.setVideoState {room : Room} (h : RoomInv room) (vs : VideoState) :
    RoomInv { room with videoState := vs } :=
  ⟨h.nonempty, h.wf, h.host_mem, h.flags, h.ids, h.bounded⟩

theorem RoomInv.pushMessage {room : Room} (h : RoomInv room) (msg : ChatMessage) :
    RoomInv { room with messages := pushMessage room.messages msg } :=
  ⟨h.nonempty, h.wf, h.host_mem, h.flags, h.ids, pushMessage_length_le h.bounded msg⟩

theorem RoomInv.setMicMuted {room : Room} (h : RoomInv room) (s : ConnId) (muted : Bool) :
    RoomInv { room with users := room.users.modify s (fun u => { u with micMuted := muted }) } := by
  refine ⟨?_, JMap.wf_modify _ _ h.wf, ?_, ?_, ?_, h.bounded⟩
  · intro hc
    have hk := JMap.keys_modify room.users s (fun u => { u with micMuted := muted })
    simp only at hc
    rw [hc] at hk
    have hn := h.nonempty
    cases hu : room.users with
    | nil => exact hn hu
    | cons e rest => rw [hu] at hk; simp [JMap.keys] at hk
  · obtain ⟨hst, hhost, hmem⟩ := h.host_mem
    refine ⟨hst, hhost, ?_⟩
    simp only
    rw [JMap.keys_modify]
    exact hmem
  · intro k usr hm hflag
    simp only at hm ⊢
    rcases JMap.mem_modify hm with h1 | ⟨v, h1, h2⟩
    · exact h.flags k usr h1 hflag
    · cases h2
      exact h.flags s v h1 hflag
  · intro k usr hm
    simp only at hm
    rcases JMap.mem_modify hm with h1 | ⟨v, h1, h2⟩
    · exact h.ids k usr h1
    · cases h2
      exact h.ids s v h1

theorem RegInv.nil : RegInv ([] : Registry) :=
  ⟨List.nodup_nil, fun _ _ h => absurd h (List.not_mem_nil _)⟩

theorem RegInv.of_get {rooms : Registry} (h : RegInv rooms) {rid : RoomId} {room : Room}
    (hg : rooms.get rid = some room) : RoomInv room ∧ room.id = rid :=
  h.rooms_ok rid room (JMap.mem_of_get hg)

theorem RegInv.set {rooms : Registry} (h : RegInv rooms) {rid : RoomId} {room : Room}
    (hr : RoomInv room) (hid : room.id = rid) : RegInv (rooms.set rid room) := by
  refine ⟨JMap.wf_set _ _ h.wf, ?_⟩
  intro rid' room' hm
  rcases JMap.mem_set hm with h1 | h1
  · exact h.rooms_ok rid' room' h1
  · cases h1
    exact ⟨hr, hid⟩

/-- The effects of a `join-room` handled on the room `room` found or created under `roomId`. -/
theorem onJoinRoom_of_some {rooms : Registry} {roomId : RoomId} {room : Room}
    (hg : rooms.get roomId = some room) (env : Env) (s : ConnId) (username : String) :
    onJoinRoom env s roomId username rooms =
      (rooms.set roomId (room.addUser s username env.random).1,
        [Effect.join s roomId,
         Effect.emit (Scope.self s)
           (OutEvent.roomState (room.addUser s username env.random).1.videoState
             (room.addUser s username env.random).1.users.values
             (room.addUser s username env.random).1.messages s),
         Effect.emit (Scope.others roomId s)
           (OutEvent.userJoined (room.addUser s username env.random).2)]) := by
  have hh : rooms.has roomId = true := by simp [JMap.has, hg]
  unfold onJoinRoom
  simp only [hh, if_true, hg]

theorem onJoinRoom_of_none {rooms : Registry} {roomId : RoomId}
    (hg : rooms.get roomId = none) (env : Env) (s : ConnId) (username : String) :
    onJoinRoom env s roomId username rooms =
      (rooms.set roomId ((Room.new roomId env.now).addUser s username env.random).1,
        [Effect.join s roomId,
         Effect.emit (Scope.self s)
           (OutEvent.roomState ((Room.new roomId env.now).addUser s username env.random).1.videoState
             ((Room.new roomId env.now).addUser s username env.random).1.users.values
             ((Room.new roomId env.now).addUser s username env.random).1.messages s),
         Effect.emit (Scope.others roomId s)
           (OutEvent.userJoined ((Room.new roomId env.now).addUser s username env.random).2)]) := by
  have hh : rooms.has roomId = false := by simp [JMap.has, hg]
  unfold onJoinRoom
  simp only [hh, Bool.false_eq_true, if_false, JMap.get_set_self, JMap.set_set]

theorem onJoinRoom_inv {rooms : Registry} (h : RegInv rooms) (env : Env) (s : ConnId)
    (roomId : RoomId) (username : String) :
    RegInv (onJoinRoom env s roomId username rooms).1 := by
  cases hg : rooms.get roomId with
  | none =>
    rw [onJoinRoom_of_none hg]
    exact h.set (Room.addUser_new_inv roomId env.now s username env.random) rfl
  | some room =>
    rw [onJoinRoom_of_some hg]
    have hr := h.of_get hg
    exact h.set (Room.addUser_inv hr.1 s username env.random)
      ((Room.addUser_id room s username env.random).trans hr.2)

theorem onVideoUrlChange_inv {rooms : Registry} (h : RegInv rooms) (env : Env) (s : ConnId)
    (roomId : RoomId) (url : String) :
    RegInv (onVideoUrlChange env s roomId url rooms).1 := by
  unfold onVideoUrlChange
  cases hg : rooms.get roomId with
  | none => exact h
  | some room =>
    have hr := h.of_get hg
    simp only
    cases hu : room.users.get s with
    | none => exact h
    | some user =>
      simp only
      split
      · exact h
      · exact h.set (hr.1.setVideoState _) hr.2

theorem onVideoPlay_inv {rooms : Registry} (h : RegInv rooms) (env : Env) (s : ConnId)
    (roomId : RoomId) (t : ℚ) : RegInv (onVideoPlay env s roomId t rooms).1 := by
  unfold onVideoPlay
  cases hg : rooms.get roomId with
  | none => exact h
  | some room =>
    have hr := h.of_get hg
    exact h.set (hr.1.setVideoState _) hr.2

theorem onVideoPause_inv {rooms : Registry} (h : RegInv rooms) (env : Env) (s : ConnId)
    (roomId : RoomId) (t : ℚ) : RegInv (onVideoPause env s roomId t rooms).1 := by
  unfold onVideoPause
  cases hg : rooms.get roomId with
  | none => exact h
  | some room =>
    have hr := h.of_get hg
    exact h.set (hr.1.setVideoState _) hr.2

theorem onVideoSeek_inv {rooms : Registry} (h : RegInv rooms) (env : Env) (s : ConnId)
    (roomId : RoomId) (t : ℚ) : RegInv (onVideoSeek env s roomId t rooms).1 := by
  unfold onVideoSeek
  cases hg : rooms.get roomId with
  | none => exact h
  | some room =>
    have hr := h.of_get hg
    exact h.set (hr.1.setVideoState _) hr.2

theorem onChatMessage_inv {rooms : Registry} (h : RegInv rooms) (env : Env) (s : ConnId)
    (roomId : RoomId) (message : String) :
    RegInv (onChatMessage env s roomId message rooms).1 := by
  unfold onChatMessage
  cases hg : rooms.get roomId with
  | none => exact h
  | some room =>
    have hr := h.of_get hg
    simp only
    cases hu : room.users.get s with
    | none => exact h
    | some user => exact h.set (hr.1.pushMessage _) hr.2

theorem onToggleMic_inv {rooms : Registry} (h : RegInv rooms) (s : ConnId)
    (roomId : RoomId) (muted : Bool) : RegInv (onToggleMic s roomId muted rooms).1 := by
  unfold onToggleMic
  cases hg : rooms.get roomId with
  | none => exact h
  | some room =>
    have hr := h.of_get hg
    simp only
    cases hu : room.users.get s with
    | none => exact h
    | some user => exact h.set (hr.1.setMicMuted s muted) hr.2

theorem onDisconnect_cons (s : ConnId) (roomId : RoomId) (room : Room) (rest : Registry) :
    onDisconnect s ((roomId, room) :: rest) =
      if room.users.has s then
        if (room.removeUser s).users.size = 0 then
          ((onDisconnect s rest).1, leaveEffect s (roomId, room) :: (onDisconnect s rest).2)
        else
          ((roomId, room.removeUser s) :: (onDisconnect s rest).1,
            leaveEffect s (roomId, room) :: (onDisconnect s rest).2)
      else ((roomId, room) :: (onDisconnect s rest).1, (onDisconnect s rest).2) := rfl

theorem JMap.size_eq_zero_iff {κ α : Type} (m : JMap κ α) : JMap.size m = 0 ↔ m = [] :=
  List.length_eq_zero

theorem onDisconnect_fst (s : ConnId) (rooms : Registry) :
    (onDisconnect s rooms).1 = rooms.filterMap (entryAfterLeave s) := by
  induction rooms with
  | nil => rfl
  | cons e rest ih =>
    obtain ⟨rid, room⟩ := e
    rw [onDisconnect_cons]
    by_cases hh : room.users.has s = true
    · by_cases he : (room.removeUser s).users = []
      · have hz : JMap.size (room.removeUser s).users = 0 := (JMap.size_eq_zero_iff _).2 he
        rw [if_pos hh, if_pos hz]
        simp [hh, he, ih, entryAfterLeave, List.filterMap_cons]
      · have hz : ¬ JMap.size (room.removeUser s).users = 0 :=
          fun h => he ((JMap.size_eq_zero_iff _).1 h)
        rw [if_pos hh, if_neg hz]
        simp [hh, he, ih, entryAfterLeave, List.filterMap_cons]
    · simp [hh, ih, entryAfterLeave, List.filterMap_cons]

theorem onDisconnect_snd (s : ConnId) (rooms : Registry) :
    (onDisconnect s rooms).2 =
      (rooms.filter (fun e => e.2.users.has s)).map (leaveEffect s) := by
  induction rooms with
  | nil => rfl
  | cons e rest ih =>
    obtain ⟨rid, room⟩ := e
    rw [onDisconnect_cons]
    by_cases hh : room.users.has s = true
    · by_cases hz : JMap.size (room.removeUser s).users = 0
      · simp [hh, hz, ih, List.filter_cons]
      · simp [hh, hz, ih, List.filter_cons]
    · simp [hh, ih, List.filter_cons]

theorem Room.removeUser_has_self (room : Room) (s : ConnId) :
    (room.removeUser s).users.has s = false := by
  rw [JMap.has_eq_false_iff, Room.removeUser_keys]
  exact JMap.not_mem_keys_delete _ _

theorem mem_onDisconnect {s : ConnId} {rooms : Registry} {e : RoomId × Room}
    (h : e ∈ (onDisconnect s rooms).1) :
    (e ∈ rooms ∧ e.2.users.has s = false) ∨
      ∃ room, (e.1, room) ∈ rooms ∧ room.users.has s = true ∧ e.2 = room.removeUser s ∧
        (room.removeUser s).users ≠ [] := by
  rw [onDisconnect_fst, List.mem_filterMap] at h
  obtain ⟨⟨rid, room⟩, hm, he⟩ := h
  unfold entryAfterLeave at he
  by_cases hh : room.users.has s = true
  · simp only [hh, if_true] at he
    by_cases hz : (room.removeUser s).users = []
    · simp [hz] at he
    · simp only [hz, if_false] at he
      cases he
      exact Or.inr ⟨room, hm, hh, rfl, hz⟩
  · simp only [hh] at he
    cases he
    exact Or.inl ⟨hm, by simpa using hh⟩

theorem keys_onDisconnect_sublist (s : ConnId) (rooms : Registry) :
    (JMap.keys (onDisconnect s rooms).1).Sublist (JMap.keys rooms) := by
  induction rooms with
  | nil => exact List.Sublist.slnil
  | cons e rest ih =>
    obtain ⟨rid, room⟩ := e
    rw [onDisconnect_cons]
    by_cases hh : room.users.has s = true
    · by_cases hz : JMap.size (room.removeUser s).users = 0
      · simp only [hh, hz, if_true]
        exact List.Sublist.cons _ ih
      · simp only [hh, hz, if_true, if_false]
        exact List.Sublist.cons₂ _ ih
    · simp only [hh]
      exact List.Sublist.cons₂ _ ih

theorem get_onDisconnect {rooms : Registry} (hwf : rooms.WF) (s : ConnId) (rid : RoomId) :
    (onDisconnect s rooms).1.get rid =
      match rooms.get rid with
      | none => none
      | some room =>
        if room.users.has s then
          if (room.removeUser s).users = [] then none else some (room.removeUser s)
        else some room := by
  induction rooms with
  | nil => rfl
  | cons e rest ih =>
    obtain ⟨rid', room'⟩ := e
    have hnd : rid' ∉ JMap.keys rest ∧ (JMap.keys rest).Nodup := List.nodup_cons.1 hwf
    have ih' := ih hnd.2
    rw [onDisconnect_cons, JMap.get_cons]
    by_cases hk : rid' = rid
    · subst hk
      have hnone : (onDisconnect s rest).1.get rid' = none := by
        rw [JMap.get_eq_none_iff]
        exact fun hc => hnd.1 ((keys_onDisconnect_sublist s rest).subset hc)
      by_cases hh : room'.users.has s = true
      · by_cases he : (room'.removeUser s).users = []
        · have hz : JMap.size (room'.removeUser s).users = 0 := (JMap.size_eq_zero_iff _).2 he
          rw [if_pos hh, if_pos hz]
          simp [hh, he, hnone]
        · have hz : ¬ JMap.size (room'.removeUser s).users = 0 :=
            fun h => he ((JMap.size_eq_zero_iff _).1 h)
          rw [if_pos hh, if_neg hz]
          simp [hh, he, JMap.get_cons]
      · simp [hh, JMap.get_cons]
    · rw [if_neg hk, ← ih']
      by_cases hh : room'.users.has s = true
      · by_cases hz : JMap.size (room'.removeUser s).users = 0
        · simp [hh, hz]
        · simp [hh, hz, JMap.get_cons, hk]
      · simp [hh, JMap.get_cons, hk]

theorem onDisconnect_inv {rooms : Registry} (h : RegInv rooms) (s : ConnId) :
    RegInv (onDisconnect s rooms).1 := by
  refine ⟨List.Nodup.sublist (keys_onDisconnect_sublist s rooms) h.wf, ?_⟩
  intro rid room hm
  rcases mem_onDisconnect hm with ⟨h1, _⟩ | ⟨room0, h1, _, h3, h4⟩
  · exact h.rooms_ok rid room h1
  · have hr := h.rooms_ok rid room0 h1
    have h3' : room = room0.removeUser s := h3
    rw [h3']
    exact ⟨Room.removeUser_inv hr.1 s h4, (Room.removeUser_id room0 s).trans hr.2⟩

/-- Every handler preserves the registry invariant. -/
theorem handle_inv {rooms : Registry} (h : RegInv rooms) (env : Env) (s : ConnId)
    (ev : Inbound) : RegInv (handle env s ev rooms).1 := by
  cases ev with
  | joinRoom roomId username => exact onJoinRoom_inv h env s roomId username
  | videoUrlChange roomId url => exact onVideoUrlChange_inv h env s roomId url
  | videoPlay roomId t => exact onVideoPlay_inv h env s roomId t
  | videoPause roomId t => exact onVideoPause_inv h env s roomId t
  | videoSeek roomId t => exact onVideoSeek_inv h env s roomId t
  | chatMessage roomId message => exact onChatMessage_inv h env s roomId message
  | toggleMic roomId muted => exact onToggleMic_inv h s roomId muted
  | signal kind roomId target body => exact h
  | screenShareStopped roomId => exact h
  | disconnect => exact onDisconnect_inv h s

/-- Every reachable registry satisfies the invariant. -/
theorem reachable_inv {rooms : Registry} (h : Reachable rooms) : RegInv rooms := by
  induction h with
  | init => exact RegInv.nil
  | step rooms env s ev _ ih => exact handle_inv ih env s ev

theorem run_inv {rooms : Registry} (h : RegInv rooms) (inputs : List Input) :
    RegInv (run rooms inputs) := by
  induction inputs generalizing rooms with
  | nil => exact h
  | cons i rest ih => exact ih (handle_inv h i.env i.sender i.event)

theorem reachable_run {rooms : Registry} (h : Reachable rooms) (inputs : List Input) :
    Reachable (run rooms inputs) := by
  induction inputs generalizing rooms with
  | nil => exact h
  | cons i rest ih => exact ih (Reachable.step rooms i.env i.sender i.event h)

end WatchParty

/-! ## Host pointer and host flag -/

namespace WatchParty

/-- Removing the only member empties the member map and changes nothing else. -/
theorem Room.removeUser_only_member (room : Room) (connId : ConnId)
    (honly : room.users.keys = [connId]) :
    room.removeUser connId = { room with users := [] } := by
  have hdel : room.users.delete connId = [] := by
    have hk := JMap.keys_delete room.users connId
    rw [honly] at hk
    simp at hk
    cases hd : room.users.delete connId with
    | nil => rfl
    | cons e rest => rw [hd] at hk; simp [JMap.keys] at hk
  have hne : ¬ (room.host = some connId ∧ JMap.size (room.users.delete connId) > 0) := by
    rw [hdel]
    simp [JMap.size]
  unfold Room.removeUser
  simp only
  rw [if_neg hne, hdel]


/-- C1 (exactly-one-host invariant), evaluated at the failing input: connection "A" creates
room "r1" and then sends `join-room` for "r1" again. The registry reached holds room "r1" with
host pointer "A" and the single member "A", whose record now has `isHost = false`: no member
is flagged as host, so the room does not have exactly one flagged host. -/
theorem C1_host_rejoin_clears_host_flag :
    Reachable (run [] [joinA, rejoinA]) ∧
    run [] [joinA, rejoinA] =
      [("r1",
        { id := "r1"
          users := [("A", { id := "A", username := "ana", isHost := false, micMuted := false,
                            avatar := some "#faa61a" })]
          host := some "A"
          videoState := { url := "", playing := false, currentTime := 0, lastUpdate := 1000 }
          messages := [] })] ∧
    (∀ rid room, (rid, room) ∈ run [] [joinA, rejoinA] →
      room.flaggedHosts = [] ∧ ¬ ExactlyOneHost room) := by
  have hrun : run [] [joinA, rejoinA] =
      [("r1",
        { id := "r1"
          users := [("A", { id := "A", username := "ana", isHost := false, micMuted := false,
                            avatar := some "#faa61a" })]
          host := some "A"
          videoState := { url := "", playing := false, currentTime := 0, lastUpdate := 1000 }
          messages := [] })] := by
    decide!
  refine ⟨reachable_run Reachable.init _, hrun, ?_⟩
  intro rid room hm
  rw [hrun] at hm
  simp only [List.mem_singleton, Prod.mk.injEq] at hm
  obtain ⟨_, hroom⟩ := hm
  subst hroom
  refine ⟨rfl, ?_⟩
  rintro ⟨u, hu, _⟩
  exact List.noConfusion hu

/-- C2 (host election): when the host `connId` of a room is removed and another member
remains, the host pointer becomes the first remaining member in insertion order, the remaining
members keep their order, the new host's record is its old record with `isHost` set to true,
and every other remaining member's record is unchanged. -/
theorem C2_removeUser_elects_first_remaining (room : Room) (connId : ConnId)
    (hhost : room.host = some connId) (hother : ∃ k, k ∈ room.users.keys ∧ k ≠ connId) :
    ∃ h u, (room.users.keys.filter (fun k => decide (k ≠ connId))).head? = some h ∧
      (room.removeUser connId).host = some h ∧
      (room.removeUser connId).users.keys =
        room.users.keys.filter (fun k => decide (k ≠ connId)) ∧
      room.users.get h = some u ∧
      (room.removeUser connId).users.get h = some { u with isHost := true } ∧
      (room.removeUser connId).users.get connId = none ∧
      ∀ k, k ≠ h → k ≠ connId → (room.removeUser connId).users.get k = room.users.get k := by
  obtain ⟨k0, hk0, hk0ne⟩ := hother
  have hk0' : k0 ∈ (room.users.delete connId).keys := by
    rw [JMap.keys_delete]
    exact List.mem_filter.2 ⟨hk0, by simpa using hk0ne⟩
  have hsize : JMap.size (room.users.delete connId) > 0 := by
    cases hd : room.users.delete connId with
    | nil => rw [hd] at hk0'; simp [JMap.keys] at hk0'
    | cons e rest => simp [JMap.size]
  obtain ⟨h, hh⟩ : ∃ h, (room.users.delete connId).keys.head? = some h := by
    cases hd : room.users.delete connId with
    | nil => rw [hd] at hk0'; simp [JMap.keys] at hk0'
    | cons e rest => exact ⟨e.1, rfl⟩
  have heq : room.removeUser connId =
      { room with
        users := (room.users.delete connId).modify h (fun u => { u with isHost := true })
        host := some h } := by
    unfold Room.removeUser
    simp only [hhost, true_and, hsize, if_true, hh]
  have hmemd : h ∈ (room.users.delete connId).keys := JMap.head?_keys_mem hh
  have hne : h ≠ connId := fun e => JMap.not_mem_keys_delete room.users connId (e ▸ hmemd)
  have hmem : h ∈ room.users.keys := by
    rw [JMap.keys_delete] at hmemd
    exact (List.mem_filter.1 hmemd).1
  obtain ⟨u, hu⟩ : ∃ u, room.users.get h = some u := by
    cases hg : room.users.get h with
    | none => exact absurd hmem ((JMap.get_eq_none_iff _ _).1 hg)
    | some u => exact ⟨u, rfl⟩
  refine ⟨h, u, ?_, ?_, ?_, hu, ?_, ?_, ?_⟩
  · rw [← JMap.keys_delete]; exact hh
  · rw [heq]
  · rw [Room.removeUser_keys, JMap.keys_delete]
  · rw [heq]
    simp only
    rw [JMap.get_modify_self, JMap.get_delete_ne _ hne, hu]
    rfl
  · rw [JMap.get_eq_none_iff, Room.removeUser_keys]
    exact JMap.not_mem_keys_delete _ _
  · intro k hkh hkc
    rw [heq]
    simp only
    rw [JMap.get_modify_ne _ _ hkh, JMap.get_delete_ne _ hkc]

/-- Witness for C2: the host "A" leaves the two-member room `duoRoom`; "B" is elected. -/
theorem C2_removeUser_elects_first_remaining_witness :
    duoRoom.host = some "A" ∧ (∃ k, k ∈ duoRoom.users.keys ∧ k ≠ "A") ∧
    ∃ h u, (duoRoom.users.keys.filter (fun k => decide (k ≠ "A"))).head? = some h ∧
      (duoRoom.removeUser "A").host = some h ∧
      (duoRoom.removeUser "A").users.keys =
        duoRoom.users.keys.filter (fun k => decide (k ≠ "A")) ∧
      duoRoom.users.get h = some u ∧
      (duoRoom.removeUser "A").users.get h = some { u with isHost := true } ∧
      (duoRoom.removeUser "A").users.get "A" = none ∧
      ∀ k, k ≠ h → k ≠ "A" → (duoRoom.removeUser "A").users.get k = duoRoom.users.get k :=
  ⟨by decide, ⟨"B", by decide, by decide⟩,
    C2_removeUser_elects_first_remaining duoRoom "A" (by decide) ⟨"B", by decide, by decide⟩⟩

/-- C3 as stated fails: removing the only member "A" of `soloRoom` empties the member map but
leaves the host pointer at "A"; it does not become null. -/
theorem C3_counterexample_host_not_null :
    soloRoom.users.keys = ["A"] ∧ (soloRoom.removeUser "A").users = [] ∧
    (soloRoom.removeUser "A").host = some "A" ∧ (soloRoom.removeUser "A").host ≠ none := by
  refine ⟨by decide, by decide, by decide, by decide⟩

/-- C3 (amended): for every room whose only member is `connId`, after `removeUser(connId)` the
room has no members and every other field, the host pointer included, is as before the call. -/
theorem C3_removeUser_last_member (room : Room) (connId : ConnId)
    (honly : room.users.keys = [connId]) :
    (room.removeUser connId).users = [] ∧ (room.removeUser connId).host = room.host ∧
    room.removeUser connId = { room with users := [] } := by
  have heq := Room.removeUser_only_member room connId honly
  exact ⟨by rw [heq], by rw [heq], heq⟩

/-- Witness for the amended C3 at `soloRoom`, whose only member and host is "A". -/
theorem C3_removeUser_last_member_witness :
    soloRoom.users.keys = ["A"] ∧
    ((soloRoom.removeUser "A").users = [] ∧ (soloRoom.removeUser "A").host = soloRoom.host ∧
      soloRoom.removeUser "A" = { soloRoom with users := [] }) :=
  ⟨by decide, C3_removeUser_last_member soloRoom "A" (by decide)⟩

end WatchParty

/-! ## `video-url-change` -/

namespace WatchParty

/-- C4 (non-host URL change is rejected): in a reachable registry, when the sender of
`video-url-change` for an existing room is not the one named by the room's host pointer, the
registry is returned unchanged and the only transport call is one `error` emitted to the
sender alone. -/
theorem C4_non_host_url_change_rejected (rooms : Registry) (hreach : Reachable rooms)
    (env : Env) (s : ConnId) (roomId : RoomId) (url : String) (room : Room)
    (hg : rooms.get roomId = some room) (hnh : room.host ≠ some s) :
    handle env s (Inbound.videoUrlChange roomId url) rooms =
      (rooms, [Effect.emit (Scope.self s) (OutEvent.error hostOnlyMessage)]) := by
  have hr := ((reachable_inv hreach).of_get hg).1
  show onVideoUrlChange env s roomId url rooms = _
  unfold onVideoUrlChange
  rw [hg]
  simp only
  cases hu : room.users.get s with
  | none => rfl
  | some user =>
    simp only
    have hflag : user.isHost = false := by
      cases hf : user.isHost with
      | false => rfl
      | true => exact absurd (hr.flags s user (JMap.mem_of_get hu) hf) hnh
    rw [if_pos hflag]

/-- Witness for C4: "B", the second member of room "r1", is not the host and asks for a new
URL. -/
theorem C4_non_host_url_change_rejected_witness :
    Reachable (run [] [joinA, joinB]) ∧
    (run [] [joinA, joinB]).get "r1" = some duoRoom ∧ duoRoom.host ≠ some "B" ∧
    handle env1 "B" (Inbound.videoUrlChange "r1" "x") (run [] [joinA, joinB]) =
      (run [] [joinA, joinB], [Effect.emit (Scope.self "B") (OutEvent.error hostOnlyMessage)]) :=
  ⟨reachable_run Reachable.init _, by decide!, by decide,
    C4_non_host_url_change_rejected (run [] [joinA, joinB]) (reachable_run Reachable.init _)
      env1 "B" "r1" "x" duoRoom (by decide!) (by decide)⟩

/-- C5 (host URL change succeeds), evaluated at the failing input: after connection "A" creates
room "r1" and sends `join-room` for it again, the host pointer of "r1" is "A", yet the
`video-url-change` sent by "A" leaves the registry (and so the videoState) unchanged and the
only transport call is an `error` emitted to "A"; no `video-url-changed` is emitted. -/
theorem C5_host_url_change_rejected_after_rejoin :
    Reachable (run [] [joinA, rejoinA]) ∧
    ((run [] [joinA, rejoinA]).get "r1").map Room.host = some (some "A") ∧
    handle env1 "A" (Inbound.videoUrlChange "r1" "x") (run [] [joinA, rejoinA]) =
      (run [] [joinA, rejoinA],
        [Effect.emit (Scope.self "A") (OutEvent.error hostOnlyMessage)]) ∧
    ((run [] [joinA, rejoinA]).get "r1").map (fun room => room.videoState.url) = some "" :=
  ⟨reachable_run Reachable.init _, by decide!, by decide!, by decide!⟩

end WatchParty

/-! ## Bounded chat history -/

namespace WatchParty

theorem lastN_nil {α : Type} (n : Nat) : lastN n ([] : List α) = [] := by
  simp [lastN]

theorem length_lastN {α : Type} (n : Nat) (l : List α) : (lastN n l).length = min l.length n := by
  unfold lastN
  rw [List.length_drop]
  omega

/-- Pushing onto the last hundred entries of a log, with the guarded `shift`, gives the last
hundred entries of the extended log. -/
theorem pushMessage_lastN (log : List ChatMessage) (msg : ChatMessage) :
    pushMessage (lastN 100 log) msg = lastN 100 (log ++ [msg]) := by
  unfold pushMessage lastN
  simp only [List.length_append, List.length_singleton, List.length_drop]
  by_cases h : log.length < 100
  · have h1 : log.length - 100 = 0 := by omega
    have h2 : log.length + 1 - 100 = 0 := by omega
    have h3 : ¬ (log.length - (log.length - 100) + 1 > 100) := by omega
    rw [if_neg h3, h1, h2]
    rfl
  · have h3 : log.length - (log.length - 100) + 1 > 100 := by omega
    have h4 : log.length + 1 - 100 = (log.length - 100) + 1 := by omega
    have h5 : log.length - 100 ≤ log.length := by omega
    rw [if_pos h3, h4, ← List.drop_append_of_le_length h5, ← List.drop_one, List.drop_drop]

theorem roomMessages_of_get {rooms : Registry} {rid : RoomId} {room : Room}
    (h : rooms.get rid = some room) : roomMessages rooms rid = room.messages := by
  unfold roomMessages; rw [h]

theorem acceptedMessage_chat (rid : RoomId) (rooms : Registry) (env : Env) (s : ConnId)
    (roomId : RoomId) (message : String) :
    acceptedMessage rid rooms ⟨env, s, Inbound.chatMessage roomId message⟩ =
      if roomId = rid then
        match rooms.get rid with
        | none => none
        | some room =>
          match room.users.get s with
          | none => none
          | some user => some (mkChatMessage env user message)
      else none := rfl

/-- The history of a room that is in the registry after one input: the history before (empty
for a room just created), extended by the message accepted with this input, if any. -/
theorem handle_messages {rooms : Registry} (hinv : RegInv rooms) (env : Env) (s : ConnId)
    (ev : Inbound) (rid : RoomId) (room1 : Room)
    (hg1 : (handle env s ev rooms).1.get rid = some room1) :
    room1.messages =
      match acceptedMessage rid rooms ⟨env, s, ev⟩ with
      | some m => pushMessage (roomMessages rooms rid) m
      | none => roomMessages rooms rid := by
  cases ev with
  | joinRoom roomId username =>
    simp only [acceptedMessage]
    simp only [handle] at hg1
    cases hg : rooms.get roomId with
    | none =>
      rw [onJoinRoom_of_none hg] at hg1
      simp only [JMap.get_set] at hg1
      by_cases hk : rid = roomId
      · subst hk
        rw [if_pos rfl] at hg1
        cases hg1
        simp [roomMessages, hg, Room.addUser, Room.new]
      · rw [if_neg hk] at hg1
        rw [roomMessages_of_get hg1]
    | some room =>
      rw [onJoinRoom_of_some hg] at hg1
      simp only [JMap.get_set] at hg1
      by_cases hk : rid = roomId
      · subst hk
        rw [if_pos rfl] at hg1
        cases hg1
        rw [roomMessages_of_get hg]
        rfl
      · rw [if_neg hk] at hg1
        rw [roomMessages_of_get hg1]
  | videoUrlChange roomId url =>
    simp only [acceptedMessage]
    simp only [handle, onVideoUrlChange] at hg1
    cases hg : rooms.get roomId with
    | none =>
      rw [hg] at hg1
      rw [roomMessages_of_get hg1]
    | some room =>
      rw [hg] at hg1
      simp only at hg1
      cases hu : room.users.get s with
      | none =>
        rw [hu] at hg1
        rw [roomMessages_of_get hg1]
      | some user =>
        rw [hu] at hg1
        simp only at hg1
        split at hg1
        · rw [roomMessages_of_get hg1]
        · simp only [JMap.get_set] at hg1
          by_cases hk : rid = roomId
          · subst hk
            rw [if_pos rfl] at hg1
            cases hg1
            rw [roomMessages_of_get hg]
          · rw [if_neg hk] at hg1
            rw [roomMessages_of_get hg1]
  | videoPlay roomId t =>
    simp only [acceptedMessage]
    simp only [handle, onVideoPlay] at hg1
    cases hg : rooms.get roomId with
    | none =>
      rw [hg] at hg1
      rw [roomMessages_of_get hg1]
    | some room =>
      rw [hg] at hg1
      simp only [JMap.get_set] at hg1
      by_cases hk : rid = roomId
      · subst hk
        rw [if_pos rfl] at hg1
        cases hg1
        rw [roomMessages_of_get hg]
      · rw [if_neg hk] at hg1
        rw [roomMessages_of_get hg1]
  | videoPause roomId t =>
    simp only [acceptedMessage]
    simp only [handle, onVideoPause] at hg1
    cases hg : rooms.get roomId with
    | none =>
      rw [hg] at hg1
      rw [roomMessages_of_get hg1]
    | some room =>
      rw [hg] at hg1
      simp only [JMap.get_set] at hg1
      by_cases hk : rid = roomId
      · subst hk
        rw [if_pos rfl] at hg1
        cases hg1
        rw [roomMessages_of_get hg]
      · rw [if_neg hk] at hg1
        rw [roomMessages_of_get hg1]
  | videoSeek roomId t =>
    simp only [acceptedMessage]
    simp only [handle, onVideoSeek] at hg1
    cases hg : rooms.get roomId with
    | none =>
      rw [hg] at hg1
      rw [roomMessages_of_get hg1]
    | some room =>
      rw [hg] at hg1
      simp only [JMap.get_set] at hg1
      by_cases hk : rid = roomId
      · subst hk
        rw [if_pos rfl] at hg1
        cases hg1
        rw [roomMessages_of_get hg]
      · rw [if_neg hk] at hg1
        rw [roomMessages_of_get hg1]
  | chatMessage roomId message =>
    rw [acceptedMessage_chat]
    simp only [handle, onChatMessage] at hg1
    by_cases hk : roomId = rid
    · subst hk
      rw [if_pos rfl]
      cases hg : rooms.get roomId with
      | none =>
        rw [hg] at hg1
        simp only at hg1
        rw [hg] at hg1
        exact Option.noConfusion hg1
      | some room =>
        rw [hg] at hg1
        simp only at hg1 ⊢
        cases hu : room.users.get s with
        | none =>
          rw [hu] at hg1
          simp only at hg1 ⊢
          rw [roomMessages_of_get hg1]
        | some user =>
          rw [hu] at hg1
          simp only [JMap.get_set, if_true] at hg1 ⊢
          cases hg1
          rw [roomMessages_of_get hg]
    · rw [if_neg hk]
      have hk' : ¬ rid = roomId := fun e => hk e.symm
      cases hg : rooms.get roomId with
      | none =>
        rw [hg] at hg1
        rw [roomMessages_of_get hg1]
      | some room =>
        rw [hg] at hg1
        simp only at hg1
        cases hu : room.users.get s with
        | none =>
          rw [hu] at hg1
          rw [roomMessages_of_get hg1]
        | some user =>
          rw [hu] at hg1
          simp only [JMap.get_set, if_neg hk'] at hg1
          rw [roomMessages_of_get hg1]
  | toggleMic roomId muted =>
    simp only [acceptedMessage]
    simp only [handle, onToggleMic] at hg1
    cases hg : rooms.get roomId with
    | none =>
      rw [hg] at hg1
      rw [roomMessages_of_get hg1]
    | some room =>
      rw [hg] at hg1
      simp only at hg1
      cases hu : room.users.get s with
      | none =>
        rw [hu] at hg1
        rw [roomMessages_of_get hg1]
      | some user =>
        rw [hu] at hg1
        simp only [JMap.get_set] at hg1
        by_cases hk : rid = roomId
        · subst hk
          rw [if_pos rfl] at hg1
          cases hg1
          rw [roomMessages_of_get hg]
        · rw [if_neg hk] at hg1
          rw [roomMessages_of_get hg1]
  | signal kind roomId target body =>
    simp only [acceptedMessage]
    exact (roomMessages_of_get hg1).symm
  | screenShareStopped roomId =>
    simp only [acceptedMessage]
    exact (roomMessages_of_get hg1).symm
  | disconnect =>
    simp only [acceptedMessage]
    simp only [handle] at hg1
    rw [get_onDisconnect hinv.wf] at hg1
    cases hg : rooms.get rid with
    | none =>
      rw [hg] at hg1
      exact Option.noConfusion hg1
    | some room =>
      rw [hg] at hg1
      simp only at hg1
      rw [roomMessages_of_get hg]
      split at hg1
      · split at hg1
        · exact Option.noConfusion hg1
        · cases hg1
          exact Room.removeUser_messages room s
      · cases hg1
        rfl

theorem acceptedSince_cons (rid : RoomId) (rooms : Registry) (log : List ChatMessage)
    (i : Input) (rest : List Input) :
    acceptedSince rid rooms log (i :: rest) =
      acceptedSince rid (handle i.env i.sender i.event rooms).1
        (if (handle i.env i.sender i.event rooms).1.has rid then
          (match acceptedMessage rid rooms i with
            | some m => log ++ [m]
            | none => log)
         else []) rest := rfl

/-- The stored history is the last hundred entries of the accepted log, along any run. -/
theorem roomMessages_run (rid : RoomId) (inputs : List Input) :
    ∀ (rooms : Registry) (log : List ChatMessage), RegInv rooms →
      roomMessages rooms rid = lastN 100 log → (rooms.get rid = none → log = []) →
      roomMessages (run rooms inputs) rid = lastN 100 (acceptedSince rid rooms log inputs) := by
  induction inputs with
  | nil => intro rooms log _ h _; exact h
  | cons i rest ih =>
    intro rooms log hinv hm hnone
    rw [acceptedSince_cons]
    show roomMessages (run (handle i.env i.sender i.event rooms).1 rest) rid = _
    apply ih _ _ (handle_inv hinv i.env i.sender i.event)
    · cases hg1 : (handle i.env i.sender i.event rooms).1.get rid with
      | none =>
        have hh : (handle i.env i.sender i.event rooms).1.has rid = false := by
          simp [JMap.has, hg1]
        rw [hh]
        simp [roomMessages, hg1, lastN]
      | some room1 =>
        have hh : (handle i.env i.sender i.event rooms).1.has rid = true := by
          simp [JMap.has, hg1]
        rw [hh, if_pos rfl, roomMessages_of_get hg1,
          handle_messages hinv i.env i.sender i.event rid room1 hg1]
        cases ha : acceptedMessage rid rooms i with
        | none => exact hm
        | some m =>
          simp only
          rw [hm, pushMessage_lastN]
    · intro hg1
      have hh : (handle i.env i.sender i.event rooms).1.has rid = false := by
        simp [JMap.has, hg1]
      rw [hh]
      rfl

/-- C6 (bounded chat history): after any queue of inputs processed from the empty registry,
the history of every room in the registry is the last min(n, 100) chat messages accepted for
that room since it was created, in arrival order, n being the number accepted; its length is
min(n, 100), so never more than 100, and the oldest entries are the ones dropped. -/
theorem C6_messages_are_last_hundred_accepted (inputs : List Input) (rid : RoomId)
    (room : Room) (hg : (run [] inputs).get rid = some room) :
    room.messages = lastN 100 (acceptedSince rid [] [] inputs) ∧
    room.messages.length = min (acceptedSince rid [] [] inputs).length 100 ∧
    room.messages.length ≤ 100 := by
  have h := roomMessages_run rid inputs [] [] RegInv.nil rfl (fun _ => rfl)
  rw [roomMessages_of_get hg] at h
  refine ⟨h, ?_, ?_⟩
  · rw [h, length_lastN]
  · rw [h, length_lastN]
    exact Nat.min_le_right _ _

/-- Witness for C6: "A" joins "r1" and sends 101 chat messages with ids 0 to 100; the
history holds the 100 messages with ids 1 to 100, the one with id 0 having been dropped. -/
theorem C6_messages_are_last_hundred_accepted_witness :
    (run [] chatFlood).get "r1" =
      some { soloRoom with
        messages := (List.range' 1 100).map (fun n =>
          { id := n, username := "ana", text := "hi", timestamp := "20:15",
            avatar := some "#7289da" }) } ∧
    (acceptedSince "r1" [] [] chatFlood).length = 101 ∧
    ((List.range' 1 100).map (fun n =>
        ({ id := n, username := "ana", text := "hi", timestamp := "20:15",
           avatar := some "#7289da" } : ChatMessage)) =
      lastN 100 (acceptedSince "r1" [] [] chatFlood) ∧
     ((List.range' 1 100).map (fun n =>
        ({ id := n, username := "ana", text := "hi", timestamp := "20:15",
           avatar := some "#7289da" } : ChatMessage))).length =
      min (acceptedSince "r1" [] [] chatFlood).length 100 ∧
     ((List.range' 1 100).map (fun n =>
        ({ id := n, username := "ana", text := "hi", timestamp := "20:15",
           avatar := some "#7289da" } : ChatMessage))).length ≤ 100) :=
  ⟨by decide!, by decide!,
    C6_messages_are_last_hundred_accepted chatFlood "r1"
      { soloRoom with
        messages := (List.range' 1 100).map (fun n =>
          { id := n, username := "ana", text := "hi", timestamp := "20:15",
            avatar := some "#7289da" }) } (by decide!)⟩

end WatchParty

/-! ## Rooms in the registry: keys, creation and deletion -/

namespace WatchParty

theorem keys_set_of_get {rooms : Registry} {roomId : RoomId} {room : Room}
    (hg : rooms.get roomId = some room) (room1 : Room) :
    JMap.keys (rooms.set roomId room1) = JMap.keys rooms :=
  JMap.keys_set_of_mem rooms room1 (JMap.mem_keys_of_mem (JMap.mem_of_get hg))

/-- The room ids in the registry after one input. -/
theorem handle_keys (env : Env) (s : ConnId) (ev : Inbound) (rooms : Registry) :
    JMap.keys (handle env s ev rooms).1 =
      match ev with
      | Inbound.joinRoom roomId _ =>
        if rooms.has roomId then JMap.keys rooms else JMap.keys rooms ++ [roomId]
      | Inbound.disconnect => JMap.keys (onDisconnect s rooms).1
      | _ => JMap.keys rooms := by
  cases ev with
  | joinRoom roomId username =>
    simp only [handle]
    cases hg : rooms.get roomId with
    | none =>
      have hh : rooms.has roomId = false := by simp [JMap.has, hg]
      rw [onJoinRoom_of_none hg, hh]
      simp only [Bool.false_eq_true, if_false]
      exact JMap.keys_set_of_not_mem _ _ ((JMap.get_eq_none_iff _ _).1 hg)
    | some room =>
      have hh : rooms.has roomId = true := by simp [JMap.has, hg]
      rw [onJoinRoom_of_some hg, hh, if_pos rfl]
      exact keys_set_of_get hg _
  | videoUrlChange roomId url =>
    simp only [handle, onVideoUrlChange]
    cases hg : rooms.get roomId with
    | none => rfl
    | some room =>
      simp only
      cases hu : room.users.get s with
      | none => rfl
      | some user =>
        simp only
        split
        · rfl
        · exact keys_set_of_get hg _
  | videoPlay roomId t =>
    simp only [handle, onVideoPlay]
    cases hg : rooms.get roomId with
    | none => rfl
    | some room => exact keys_set_of_get hg _
  | videoPause roomId t =>
    simp only [handle, onVideoPause]
    cases hg : rooms.get roomId with
    | none => rfl
    | some room => exact keys_set_of_get hg _
  | videoSeek roomId t =>
    simp only [handle, onVideoSeek]
    cases hg : rooms.get roomId with
    | none => rfl
    | some room => exact keys_set_of_get hg _
  | chatMessage roomId message =>
    simp only [handle, onChatMessage]
    cases hg : rooms.get roomId with
    | none => rfl
    | some room =>
      simp only
      cases hu : room.users.get s with
      | none => rfl
      | some user => exact keys_set_of_get hg _
  | toggleMic roomId muted =>
    simp only [handle, onToggleMic]
    cases hg : rooms.get roomId with
    | none => rfl
    | some room =>
      simp only
      cases hu : room.users.get s with
      | none => rfl
      | some user => exact keys_set_of_get hg _
  | signal kind roomId target body => rfl
  | screenShareStopped roomId => rfl
  | disconnect => rfl

/-- A room absent before an input and present after it was created by a `join-room` for its
id, and its only member is the sender. -/
theorem handle_creates {rooms : Registry} (env : Env) (s : ConnId) (ev : Inbound)
    (rid : RoomId) (room1 : Room) (hnone : rooms.get rid = none)
    (hg1 : (handle env s ev rooms).1.get rid = some room1) :
    (∃ username, ev = Inbound.joinRoom rid username) ∧ room1.users.keys = [s] := by
  have hnk : rid ∉ JMap.keys rooms := (JMap.get_eq_none_iff _ _).1 hnone
  have hk1 : rid ∈ JMap.keys (handle env s ev rooms).1 :=
    JMap.mem_keys_of_mem (JMap.mem_of_get hg1)
  rw [handle_keys] at hk1
  cases ev with
  | joinRoom roomId username =>
    simp only at hk1
    by_cases hh : rooms.has roomId = true
    · rw [if_pos hh] at hk1
      exact absurd hk1 hnk
    · rw [if_neg hh] at hk1
      have hrid : rid = roomId := by
        rcases List.mem_append.1 hk1 with h1 | h1
        · exact absurd h1 hnk
        · exact List.mem_singleton.1 h1
      subst hrid
      refine ⟨⟨username, rfl⟩, ?_⟩
      simp only [handle] at hg1
      rw [onJoinRoom_of_none hnone, JMap.get_set_self] at hg1
      cases hg1
      rfl
  | disconnect =>
    exact absurd ((keys_onDisconnect_sublist s rooms).subset hk1) hnk
  | videoUrlChange roomId url => exact absurd hk1 hnk
  | videoPlay roomId t => exact absurd hk1 hnk
  | videoPause roomId t => exact absurd hk1 hnk
  | videoSeek roomId t => exact absurd hk1 hnk
  | chatMessage roomId message => exact absurd hk1 hnk
  | toggleMic roomId muted => exact absurd hk1 hnk
  | signal kind roomId target body => exact absurd hk1 hnk
  | screenShareStopped roomId => exact absurd hk1 hnk

theorem keys_eq_singleton_of_delete_nil {κ α : Type} [DecidableEq κ] {m : JMap κ α} {k : κ}
    (hwf : m.WF) (hmem : k ∈ JMap.keys m) (hdel : JMap.delete m k = []) :
    JMap.keys m = [k] := by
  have hk := JMap.keys_delete m k
  rw [hdel] at hk
  have hall : ∀ x ∈ JMap.keys m, x = k := by
    intro x hx
    by_contra hne
    have : x ∈ (JMap.keys m).filter (fun x => decide (x ≠ k)) :=
      List.mem_filter.2 ⟨hx, by simpa using hne⟩
    rw [← hk] at this
    simp [JMap.keys] at this
  unfold JMap.WF at hwf
  cases hm : JMap.keys m with
  | nil => rw [hm] at hmem; simp at hmem
  | cons a rest =>
    rw [hm] at hall hwf
    have ha : a = k := hall a (List.mem_cons_self _ _)
    cases rest with
    | nil => rw [ha]
    | cons b rest2 =>
      have hb : b = k := hall b (List.mem_cons_of_mem _ (List.mem_cons_self _ _))
      have hnd := (List.nodup_cons.1 hwf).1
      rw [ha, hb] at hnd
      exact absurd (List.mem_cons_self _ _) hnd

/-- A room present before an input and absent after it was deleted by the `disconnect` of its
only member. -/
theorem handle_deletes {rooms : Registry} (hinv : RegInv rooms) (env : Env) (s : ConnId)
    (ev : Inbound) (rid : RoomId) (room : Room) (hg : rooms.get rid = some room)
    (hnone : (handle env s ev rooms).1.get rid = none) :
    ev = Inbound.disconnect ∧ room.users.keys = [s] := by
  have hk : rid ∈ JMap.keys rooms := JMap.mem_keys_of_mem (JMap.mem_of_get hg)
  have hnk1 : rid ∉ JMap.keys (handle env s ev rooms).1 := (JMap.get_eq_none_iff _ _).1 hnone
  rw [handle_keys] at hnk1
  cases ev with
  | joinRoom roomId username =>
    simp only at hnk1
    by_cases hh : rooms.has roomId = true
    · rw [if_pos hh] at hnk1
      exact absurd hk hnk1
    · rw [if_neg hh] at hnk1
      exact absurd (List.mem_append_left _ hk) hnk1
  | disconnect =>
    refine ⟨rfl, ?_⟩
    simp only [handle] at hnone
    rw [get_onDisconnect hinv.wf, hg] at hnone
    simp only at hnone
    have hr := (hinv.of_get hg).1
    by_cases hh : room.users.has s = true
    · rw [if_pos hh] at hnone
      by_cases he : (room.removeUser s).users = []
      · have hkeys := Room.removeUser_keys room s
        rw [he] at hkeys
        have hdel : room.users.delete s = [] := by
          cases hd : room.users.delete s with
          | nil => rfl
          | cons e rest => rw [hd] at hkeys; simp [JMap.keys] at hkeys
        exact keys_eq_singleton_of_delete_nil hr.wf ((JMap.has_eq_true_iff _ _).1 hh) hdel
      · rw [if_neg he] at hnone
        exact Option.noConfusion hnone
    · rw [if_neg hh] at hnone
      exact Option.noConfusion hnone
  | videoUrlChange roomId url => exact absurd hk hnk1
  | videoPlay roomId t => exact absurd hk hnk1
  | videoPause roomId t => exact absurd hk hnk1
  | videoSeek roomId t => exact absurd hk hnk1
  | chatMessage roomId message => exact absurd hk hnk1
  | toggleMic roomId muted => exact absurd hk hnk1
  | signal kind roomId target body => exact absurd hk hnk1
  | screenShareStopped roomId => exact absurd hk hnk1

/-- The `disconnect` of the only member of a room deletes the room. -/
theorem disconnect_last_member {rooms : Registry} (hinv : RegInv rooms) (env : Env)
    (s : ConnId) (rid : RoomId) (room : Room) (hg : rooms.get rid = some room)
    (honly : room.users.keys = [s]) :
    (handle env s Inbound.disconnect rooms).1.get rid = none := by
  simp only [handle]
  rw [get_onDisconnect hinv.wf, hg]
  simp only
  have hh : room.users.has s = true := by
    rw [JMap.has_eq_true_iff, honly]
    exact List.mem_singleton_self s
  have he : (room.removeUser s).users = [] := by
    rw [Room.removeUser_only_member room s honly]
  rw [if_pos hh, if_pos he]

end WatchParty

/-! ## Registry invariants, fail-silent events and disconnect -/

namespace WatchParty

/-- C7 (a nonempty room has a host who is a member): in every reachable registry, every room
with at least one member has a non-null host pointer, and the connection it names is a key of
the room's member map. -/
theorem C7_host_pointer_names_a_member (rooms : Registry) (hreach : Reachable rooms)
    (rid : RoomId) (room : Room) (hm : (rid, room) ∈ rooms) (_hne : room.users.size > 0) :
    ∃ h, room.host = some h ∧ h ∈ room.users.keys ∧ room.users.has h = true := by
  obtain ⟨h, hh, hk⟩ := ((reachable_inv hreach).rooms_ok rid room hm).1.host_mem
  exact ⟨h, hh, hk, (JMap.has_eq_true_iff _ _).2 hk⟩

/-- Witness for C7: after "A" and "B" join "r1" and "A" disconnects, the room left in the
registry has one member and a host pointer naming a member. -/
theorem C7_host_pointer_names_a_member_witness :
    Reachable (run [] [joinA, joinB, leaveA]) ∧
    ("r1", duoRoom.removeUser "A") ∈ run [] [joinA, joinB, leaveA] ∧
    (duoRoom.removeUser "A").users.size > 0 ∧
    ∃ h, (duoRoom.removeUser "A").host = some h ∧ h ∈ (duoRoom.removeUser "A").users.keys ∧
      (duoRoom.removeUser "A").users.has h = true :=
  ⟨reachable_run Reachable.init _, by decide!, by decide!,
    C7_host_pointer_names_a_member (run [] [joinA, joinB, leaveA])
      (reachable_run Reachable.init _) "r1" (duoRoom.removeUser "A") (by decide!) (by decide!)⟩

/-- C8 (no empty room): in every reachable registry no room has zero members. A room that
appears with an input was created by that `join-room` with the sender as its only member; the
`disconnect` of a room's only member deletes the room in that step, and a room disappears in
no other way. -/
theorem C8_no_room_without_members (rooms : Registry) (hreach : Reachable rooms) :
    (∀ rid room, (rid, room) ∈ rooms → room.users.size > 0) ∧
    (∀ env s ev rid room1, rooms.get rid = none →
      (handle env s ev rooms).1.get rid = some room1 →
      (∃ username, ev = Inbound.joinRoom rid username) ∧ room1.users.keys = [s]) ∧
    (∀ env s rid room, rooms.get rid = some room → room.users.keys = [s] →
      (handle env s Inbound.disconnect rooms).1.get rid = none) ∧
    (∀ env s ev rid room, rooms.get rid = some room →
      (handle env s ev rooms).1.get rid = none →
      ev = Inbound.disconnect ∧ room.users.keys = [s]) := by
  have hinv := reachable_inv hreach
  refine ⟨?_, ?_, ?_, ?_⟩
  · intro rid room hm
    exact List.length_pos.2 (hinv.rooms_ok rid room hm).1.nonempty
  · intro env s ev rid room1 hnone hg1
    exact handle_creates env s ev rid room1 hnone hg1
  · intro env s rid room hg honly
    exact disconnect_last_member hinv env s rid room hg honly
  · intro env s ev rid room hg hnone
    exact handle_deletes hinv env s ev rid room hg hnone

/-- Witness for C8 at the registry reached when "A" has joined "r1". -/
theorem C8_no_room_without_members_witness :
    Reachable (run [] [joinA]) ∧
    ((∀ rid room, (rid, room) ∈ run [] [joinA] → room.users.size > 0) ∧
    (∀ env s ev rid room1, (run [] [joinA]).get rid = none →
      (handle env s ev (run [] [joinA])).1.get rid = some room1 →
      (∃ username, ev = Inbound.joinRoom rid username) ∧ room1.users.keys = [s]) ∧
    (∀ env s rid room, (run [] [joinA]).get rid = some room → room.users.keys = [s] →
      (handle env s Inbound.disconnect (run [] [joinA])).1.get rid = none) ∧
    (∀ env s ev rid room, (run [] [joinA]).get rid = some room →
      (handle env s ev (run [] [joinA])).1.get rid = none →
      ev = Inbound.disconnect ∧ room.users.keys = [s])) :=
  ⟨reachable_run Reachable.init _,
    C8_no_room_without_members (run [] [joinA]) (reachable_run Reachable.init _)⟩

/-- An event naming a room that is not in the registry is dropped by the playback, chat and
microphone handlers: registry unchanged, no transport call. -/
theorem missing_room_dropped (env : Env) (s : ConnId) (roomId : RoomId) (rooms : Registry)
    (hnone : rooms.get roomId = none) (t : ℚ) (message : String) (muted : Bool) :
    handle env s (Inbound.videoPlay roomId t) rooms = (rooms, []) ∧
    handle env s (Inbound.videoPause roomId t) rooms = (rooms, []) ∧
    handle env s (Inbound.videoSeek roomId t) rooms = (rooms, []) ∧
    handle env s (Inbound.chatMessage roomId message) rooms = (rooms, []) ∧
    handle env s (Inbound.toggleMic roomId muted) rooms = (rooms, []) := by
  simp [handle, onVideoPlay, onVideoPause, onVideoSeek, onChatMessage, onToggleMic, hnone]

/-- A `chat-message` or `toggle-mic` from a sender who is not a member of the named room is
dropped: registry unchanged, no transport call. -/
theorem non_member_chat_mic_dropped (env : Env) (s : ConnId) (roomId : RoomId)
    (rooms : Registry) (room : Room) (hg : rooms.get roomId = some room)
    (hs : room.users.get s = none) (message : String) (muted : Bool) :
    handle env s (Inbound.chatMessage roomId message) rooms = (rooms, []) ∧
    handle env s (Inbound.toggleMic roomId muted) rooms = (rooms, []) := by
  simp [handle, onChatMessage, onToggleMic, hg, hs]

/-- C9 (fail-silent policy), evaluated at the failing input: "Z", who never joined, sends
`video-play`, `video-pause` and `video-seek` for room "r1", whose only member is "A". Each
handler changes the room's videoState and emits the event to the room; none is dropped. -/
theorem C9_non_member_playback_not_dropped :
    Reachable (run [] [joinA]) ∧
    (run [] [joinA]).get "r1" = some soloRoom ∧ soloRoom.users.has "Z" = false ∧
    handle env1 "Z" (Inbound.videoPlay "r1" 42) (run [] [joinA]) =
      ([("r1", { soloRoom with
          videoState := { url := "", playing := true, currentTime := 42, lastUpdate := 2000 } })],
        [Effect.emit (Scope.others "r1" "Z") (OutEvent.videoPlay 42)]) ∧
    handle env1 "Z" (Inbound.videoPause "r1" 42) (run [] [joinA]) =
      ([("r1", { soloRoom with
          videoState := { url := "", playing := false, currentTime := 42, lastUpdate := 2000 } })],
        [Effect.emit (Scope.others "r1" "Z") (OutEvent.videoPause 42)]) ∧
    handle env1 "Z" (Inbound.videoSeek "r1" 42) (run [] [joinA]) =
      ([("r1", { soloRoom with
          videoState := { url := "", playing := false, currentTime := 42, lastUpdate := 2000 } })],
        [Effect.emit (Scope.others "r1" "Z") (OutEvent.videoSeek 42)]) ∧
    handle env1 "Z" (Inbound.videoPlay "r1" 42) (run [] [joinA]) ≠ (run [] [joinA], []) :=
  ⟨reachable_run Reachable.init _, by decide!, by decide!, by decide!, by decide!, by decide!,
    by decide!⟩

/-- What `removeUser(s)` does to any room: the member keys are the old keys without `s`, in
order; every other member keeps its record, except that the first remaining member gets
`isHost = true` when the host pointer named `s`; the host pointer becomes that first remaining
member when it named `s` and a member remains, and is unchanged otherwise; the videoState, the
history and the id are unchanged; the room is left empty exactly when it had no member other
than `s`. -/
theorem Room.removeUser_spec (room : Room) (s : ConnId) :
    (room.removeUser s).users.keys = room.users.keys.filter (fun k => decide (k ≠ s)) ∧
    (room.removeUser s).users.get s = none ∧
    (∀ k u, k ≠ s → room.users.get k = some u →
      (room.removeUser s).users.get k =
        some (if room.host = some s ∧
                (room.users.keys.filter (fun k => decide (k ≠ s))).head? = some k
              then { u with isHost := true } else u)) ∧
    (room.removeUser s).host =
      (if room.host = some s then
        ((room.users.keys.filter (fun k => decide (k ≠ s))).head? <|> room.host)
       else room.host) ∧
    (room.removeUser s).videoState = room.videoState ∧
    (room.removeUser s).messages = room.messages ∧
    (room.removeUser s).id = room.id ∧
    ((room.removeUser s).users = [] ↔ ∀ k, k ∈ room.users.keys → k = s) := by
  have hkeys : (room.removeUser s).users.keys =
      room.users.keys.filter (fun k => decide (k ≠ s)) := by
    rw [Room.removeUser_keys, JMap.keys_delete]
  have hkd : (room.users.delete s).keys = room.users.keys.filter (fun k => decide (k ≠ s)) :=
    JMap.keys_delete _ _
  have hempty : (room.removeUser s).users = [] ↔ ∀ k, k ∈ room.users.keys → k = s := by
    constructor
    · intro he k hk
      by_contra hne
      have hin : k ∈ (room.removeUser s).users.keys := by
        rw [hkeys]
        exact List.mem_filter.2 ⟨hk, by simpa using hne⟩
      rw [he] at hin
      simp [JMap.keys] at hin
    · intro hall
      have hnil : (room.removeUser s).users.keys = [] := by
        rw [hkeys, List.filter_eq_nil_iff]
        intro k hk
        simp [hall k hk]
      cases hu : (room.removeUser s).users with
      | nil => rfl
      | cons e rest => rw [hu] at hnil; simp [JMap.keys] at hnil
  refine ⟨hkeys, ?_, ?_, ?_, Room.removeUser_videoState room s, Room.removeUser_messages room s,
    Room.removeUser_id room s, hempty⟩
  · rw [JMap.get_eq_none_iff, Room.removeUser_keys]
    exact JMap.not_mem_keys_delete _ _
  · intro k u hk hu
    by_cases hcond : room.host = some s ∧ JMap.size (room.users.delete s) > 0
    · obtain ⟨h, hh⟩ : ∃ h, (room.users.delete s).keys.head? = some h := by
        cases hd : room.users.delete s with
        | nil => rw [hd] at hcond; simp [JMap.size] at hcond
        | cons e rest => exact ⟨e.1, rfl⟩
      have heq : room.removeUser s =
          { room with
            users := (room.users.delete s).modify h (fun u => { u with isHost := true })
            host := some h } := by
        unfold Room.removeUser
        simp only [if_pos hcond, hh]
      rw [heq, ← hkd, hh]
      simp only
      by_cases hhk : k = h
      · subst hhk
        rw [JMap.get_modify_self, JMap.get_delete_ne _ hk, hu]
        simp [hcond.1]
      · rw [JMap.get_modify_ne _ _ hhk, JMap.get_delete_ne _ hk, hu]
        have : ¬ (room.host = some s ∧ some h = some k) := by
          rintro ⟨_, hc⟩
          exact hhk (Option.some.inj hc).symm
        rw [if_neg this]
    · have heq : room.removeUser s = { room with users := room.users.delete s } := by
        unfold Room.removeUser
        simp only [if_neg hcond]
      rw [heq, ← hkd]
      simp only
      rw [JMap.get_delete_ne _ hk, hu]
      have : ¬ (room.host = some s ∧ (room.users.delete s).keys.head? = some k) := by
        rintro ⟨h1, h2⟩
        apply hcond
        refine ⟨h1, ?_⟩
        cases hd : room.users.delete s with
        | nil => rw [hd] at h2; simp [JMap.keys] at h2
        | cons e rest => simp [JMap.size]
      rw [if_neg this]
  · by_cases hcond : room.host = some s ∧ JMap.size (room.users.delete s) > 0
    · obtain ⟨h, hh⟩ : ∃ h, (room.users.delete s).keys.head? = some h := by
        cases hd : room.users.delete s with
        | nil => rw [hd] at hcond; simp [JMap.size] at hcond
        | cons e rest => exact ⟨e.1, rfl⟩
      have heq : room.removeUser s =
          { room with
            users := (room.users.delete s).modify h (fun u => { u with isHost := true })
            host := some h } := by
        unfold Room.removeUser
        simp only [if_pos hcond, hh]
      rw [heq, ← hkd, hh, if_pos hcond.1]
      rfl
    · have heq : room.removeUser s = { room with users := room.users.delete s } := by
        unfold Room.removeUser
        simp only [if_neg hcond]
      rw [heq, ← hkd]
      simp only
      by_cases hhost : room.host = some s
      · rw [if_pos hhost]
        have hnil : room.users.delete s = [] := by
          cases hd : room.users.delete s with
          | nil => rfl
          | cons e rest =>
            exfalso
            apply hcond
            refine ⟨hhost, ?_⟩
            rw [hd]
            simp [JMap.size]
        rw [hnil]
        rfl
      · rw [if_neg hhost]

/-- C10 (disconnect cleanup): for every registry and connection `connId`, `disconnect` turns
each entry whose room has `connId` as a member into that room with `connId` removed, or drops
the entry when that leaves the room empty, and keeps every other entry as it is, in order; the
transport calls are one `user-left` per room that had `connId`, in registry order, carrying
`connId` and the host pointer after the removal and addressed to the others of that room;
afterwards no room has `connId` as a member. The room with `connId` removed has the other
member keys in their order and the other members' records (the first remaining member flagged
as host when `connId` was the host), the same videoState, history and id, and is empty exactly
when `connId` was the only member. -/
theorem C10_disconnect_cleanup (env : Env) (connId : ConnId) (rooms : Registry) :
    (handle env connId Inbound.disconnect rooms).1 = rooms.filterMap (entryAfterLeave connId) ∧
    (handle env connId Inbound.disconnect rooms).2 =
      (rooms.filter (fun e => e.2.users.has connId)).map
        (fun e => Effect.emit (Scope.others e.1 connId)
          (OutEvent.userLeft connId (e.2.removeUser connId).host)) ∧
    (∀ rid room, (rid, room) ∈ (handle env connId Inbound.disconnect rooms).1 →
      room.users.has connId = false) ∧
    (∀ room : Room,
      (room.removeUser connId).users.keys =
        room.users.keys.filter (fun k => decide (k ≠ connId)) ∧
      (room.removeUser connId).users.get connId = none ∧
      (∀ k u, k ≠ connId → room.users.get k = some u →
        (room.removeUser connId).users.get k =
          some (if room.host = some connId ∧
                  (room.users.keys.filter (fun k => decide (k ≠ connId))).head? = some k
                then { u with isHost := true } else u)) ∧
      (room.removeUser connId).host =
        (if room.host = some connId then
          ((room.users.keys.filter (fun k => decide (k ≠ connId))).head? <|> room.host)
         else room.host) ∧
      (room.removeUser connId).videoState = room.videoState ∧
      (room.removeUser connId).messages = room.messages ∧
      (room.removeUser connId).id = room.id ∧
      ((room.removeUser connId).users = [] ↔ ∀ k, k ∈ room.users.keys → k = connId)) := by
  refine ⟨onDisconnect_fst connId rooms, onDisconnect_snd connId rooms, ?_,
    fun room => Room.removeUser_spec room connId⟩
  intro rid room hm
  rcases mem_onDisconnect hm with ⟨_, h2⟩ | ⟨room0, _, _, h3, _⟩
  · exact h2
  · have h3' : room = room0.removeUser connId := h3
    rw [h3']
    exact Room.removeUser_has_self room0 connId

/-- Witness for C10: "A" is in room "r1" with "B" and alone in room "r2", and disconnects. Room
"r1" stays with "B" alone, flagged and named by the host pointer; room "r2" is deleted; one
`user-left` is emitted for each of the two rooms. -/
theorem C10_disconnect_cleanup_witness :
    run [] [joinA, joinB, joinA2] =
      [("r1", duoRoom),
       ("r2",
        { id := "r2"
          users := [("A", { id := "A", username := "ana", isHost := true, micMuted := false,
                            avatar := some "#faa61a" })]
          host := some "A"
          videoState := { url := "", playing := false, currentTime := 0, lastUpdate := 2000 }
          messages := [] })] ∧
    handle env1 "A" Inbound.disconnect (run [] [joinA, joinB, joinA2]) =
      ([("r1",
         { id := "r1"
           users := [("B", { id := "B", username := "ben", isHost := true, micMuted := false,
                             avatar := some "#faa61a" })]
           host := some "B"
           videoState := { url := "", playing := false, currentTime := 0, lastUpdate := 1000 }
           messages := [] })],
       [Effect.emit (Scope.others "r1" "A") (OutEvent.userLeft "A" (some "B")),
        Effect.emit (Scope.others "r2" "A") (OutEvent.userLeft "A" (some "A"))]) ∧
    (handle env1 "A" Inbound.disconnect (run [] [joinA, joinB, joinA2])).1 =
      (run [] [joinA, joinB, joinA2]).filterMap (entryAfterLeave "A") ∧
    (duoRoom.removeUser "A").users.keys = duoRoom.users.keys.filter (fun k => decide (k ≠ "A")) ∧
    duoRoom.users.keys.filter (fun k => decide (k ≠ "A")) = ["B"] :=
  ⟨by decide!, by decide!,
    (C10_disconnect_cleanup env1 "A" (run [] [joinA, joinB, joinA2])).1,
    ((C10_disconnect_cleanup env1 "A" (run [] [joinA, joinB, joinA2])).2.2.2 duoRoom).1,
    by decide!⟩

end WatchParty

/-! ## Repeated disconnect and first join -/

namespace WatchParty

/-- A `disconnect` of a connection that is a member of no room changes nothing and makes no
transport call. -/
theorem onDisconnect_of_absent (s : ConnId) (rooms : Registry)
    (h : ∀ rid room, (rid, room) ∈ rooms → room.users.has s = false) :
    onDisconnect s rooms = (rooms, []) := by
  induction rooms with
  | nil => rfl
  | cons e rest ih =>
    obtain ⟨rid, room⟩ := e
    have hh : ¬ room.users.has s = true := by
      rw [h rid room (List.mem_cons_self _ _)]
      exact Bool.false_ne_true
    have ih' := ih (fun rid' room' hm => h rid' room' (List.mem_cons_of_mem _ hm))
    rw [onDisconnect_cons, if_neg hh, ih']

theorem onDisconnect_absent_after (s : ConnId) (rooms : Registry) :
    ∀ rid room, (rid, room) ∈ (onDisconnect s rooms).1 → room.users.has s = false := by
  intro rid room hm
  rcases mem_onDisconnect hm with ⟨_, h2⟩ | ⟨room0, _, _, h3, _⟩
  · exact h2
  · have h3' : room = room0.removeUser s := h3
    rw [h3']
    exact Room.removeUser_has_self room0 s

/-- C11 (disconnect is idempotent): for every registry and connection, handling `disconnect`
for the connection again right after the first time returns the registry exactly as the first
left it and makes no transport call. -/
theorem C11_disconnect_idempotent (env env2 : Env) (connId : ConnId) (rooms : Registry) :
    handle env2 connId Inbound.disconnect (handle env connId Inbound.disconnect rooms).1 =
      ((handle env connId Inbound.disconnect rooms).1, []) :=
  onDisconnect_of_absent connId (onDisconnect connId rooms).1
    (onDisconnect_absent_after connId rooms)

/-- C12 (first join): when `roomId` names no room, `join-room` from `c` appends under `roomId`
a room whose only member is `c`, flagged as host, whose host pointer is `c`, whose history is
empty and whose videoState is url "", not playing, time 0; every earlier entry is kept. The
transport calls are the group join, one `room-state` emitted to `c` alone carrying that
videoState, the member list made of the record of `c`, the empty history and `userId = c`,
and one `user-joined` with that record for the others of the room. -/
theorem C12_first_join_creates_room (env : Env) (c : ConnId) (roomId : RoomId) (u : String)
    (rooms : Registry) (hnone : rooms.get roomId = none) :
    handle env c (Inbound.joinRoom roomId u) rooms =
      (rooms ++ [(roomId,
          { id := roomId
            users := [(c, { id := c, username := u, isHost := true, micMuted := false,
                            avatar := Room.getRandomAvatar env.random })]
            host := some c
            videoState := { url := "", playing := false, currentTime := 0,
                            lastUpdate := env.now }
            messages := [] })],
        [Effect.join c roomId,
         Effect.emit (Scope.self c)
           (OutEvent.roomState
             { url := "", playing := false, currentTime := 0, lastUpdate := env.now }
             [{ id := c, username := u, isHost := true, micMuted := false,
                avatar := Room.getRandomAvatar env.random }]
             [] c),
         Effect.emit (Scope.others roomId c)
           (OutEvent.userJoined
             (some { id := c, username := u, isHost := true, micMuted := false,
                     avatar := Room.getRandomAvatar env.random }))]) ∧
    (handle env c (Inbound.joinRoom roomId u) rooms).1.get roomId =
      some
        { id := roomId
          users := [(c, { id := c, username := u, isHost := true, micMuted := false,
                          avatar := Room.getRandomAvatar env.random })]
          host := some c
          videoState := { url := "", playing := false, currentTime := 0,
                          lastUpdate := env.now }
          messages := [] } := by
  have heq : (Room.new roomId env.now).addUser c u env.random =
      ({ id := roomId
         users := [(c, { id := c, username := u, isHost := true, micMuted := false,
                         avatar := Room.getRandomAvatar env.random })]
         host := some c
         videoState := { url := "", playing := false, currentTime := 0,
                         lastUpdate := env.now }
         messages := [] },
       some { id := c, username := u, isHost := true, micMuted := false,
              avatar := Room.getRandomAvatar env.random }) := by
    simp [Room.addUser, Room.new, JMap.set, JMap.get]
  have hh : handle env c (Inbound.joinRoom roomId u) rooms =
      onJoinRoom env c roomId u rooms := rfl
  rw [hh, onJoinRoom_of_none hnone, heq]
  refine ⟨?_, JMap.get_set_self _ _ _⟩
  simp only [JMap.set_eq_append rooms _ hnone]
  rfl

/-- Witness for C12: with room "r1" in the registry, "B" joins the unseen room "r2". -/
theorem C12_first_join_creates_room_witness :
    (run [] [joinA]).get "r2" = none ∧
    (handle env1 "B" (Inbound.joinRoom "r2" "ben") (run [] [joinA])).1.get "r2" =
      some
        { id := "r2"
          users := [("B", { id := "B", username := "ben", isHost := true, micMuted := false,
                            avatar := Room.getRandomAvatar env1.random })]
          host := some "B"
          videoState := { url := "", playing := false, currentTime := 0,
                          lastUpdate := env1.now }
          messages := [] } :=
  ⟨by decide!,
    (C12_first_join_creates_room env1 "B" "r2" "ben" (run [] [joinA]) (by decide!)).2⟩

end WatchParty

/-! ## Playback events, signaling relay and the two-member scenario -/

namespace WatchParty

/-- C13 (playback events): for a room stored under `roomId` and any time `t`, `video-play`
stores `playing = true` and `currentTime = t`, `video-pause` stores `playing = false` and
`currentTime = t`, `video-seek` stores `currentTime = t` and keeps `playing`; each refreshes
`lastUpdate` and keeps the url, the members, the host pointer and the history of the room,
and each makes exactly one transport call: the event of the same kind carrying `t`, emitted
to the sockets of the room other than the sender. -/
theorem C13_playback_events (env : Env) (s : ConnId) (roomId : RoomId) (t : ℚ)
    (rooms : Registry) (room : Room) (hg : rooms.get roomId = some room) :
    (handle env s (Inbound.videoPlay roomId t) rooms).1.get roomId =
      some { id := room.id, users := room.users, host := room.host, messages := room.messages,
             videoState := { url := room.videoState.url, playing := true, currentTime := t,
                             lastUpdate := env.now } } ∧
    (handle env s (Inbound.videoPlay roomId t) rooms).2 =
      [Effect.emit (Scope.others roomId s) (OutEvent.videoPlay t)] ∧
    (handle env s (Inbound.videoPause roomId t) rooms).1.get roomId =
      some { id := room.id, users := room.users, host := room.host, messages := room.messages,
             videoState := { url := room.videoState.url, playing := false, currentTime := t,
                             lastUpdate := env.now } } ∧
    (handle env s (Inbound.videoPause roomId t) rooms).2 =
      [Effect.emit (Scope.others roomId s) (OutEvent.videoPause t)] ∧
    (handle env s (Inbound.videoSeek roomId t) rooms).1.get roomId =
      some { id := room.id, users := room.users, host := room.host, messages := room.messages,
             videoState := { url := room.videoState.url, playing := room.videoState.playing,
                             currentTime := t, lastUpdate := env.now } } ∧
    (handle env s (Inbound.videoSeek roomId t) rooms).2 =
      [Effect.emit (Scope.others roomId s) (OutEvent.videoSeek t)] := by
  simp [handle, onVideoPlay, onVideoPause, onVideoSeek, hg, JMap.get_set_self]

/-- Witness for C13: "B" drives playback of room "r1", which "A" and "B" have joined. -/
theorem C13_playback_events_witness :
    (run [] [joinA, joinB]).get "r1" = some duoRoom ∧
    (handle env1 "B" (Inbound.videoPlay "r1" 5) (run [] [joinA, joinB])).2 =
      [Effect.emit (Scope.others "r1" "B") (OutEvent.videoPlay 5)] ∧
    (handle env1 "B" (Inbound.videoSeek "r1" 5) (run [] [joinA, joinB])).1.get "r1" =
      some { id := duoRoom.id, users := duoRoom.users, host := duoRoom.host,
             messages := duoRoom.messages,
             videoState := { url := duoRoom.videoState.url,
                             playing := duoRoom.videoState.playing,
                             currentTime := 5, lastUpdate := env1.now } } :=
  ⟨by decide!,
    (C13_playback_events env1 "B" "r1" 5 (run [] [joinA, joinB]) duoRoom (by decide!)).2.1,
    (C13_playback_events env1 "B" "r1" 5 (run [] [joinA, joinB]) duoRoom
      (by decide!)).2.2.2.2.1⟩

/-- C14 (signaling relay): for each of the six signaling kinds, every registry, sender `s` and
payload with fields `roomId`, `to` and body, the registry is returned unchanged and there is
exactly one transport call: the event of the same kind, emitted through `socket.to(to)`, with
`from = s` and the body as received. The field `roomId` is not consulted. -/
theorem C14_signaling_relay_pass_through (env : Env) (s : ConnId) (kind : SignalKind)
    (roomId : RoomId) (target : ConnId) (body : String) (rooms : Registry) :
    handle env s (Inbound.signal kind roomId target body) rooms =
      (rooms, [Effect.emit (Scope.others target s) (OutEvent.signal kind s body)]) := rfl

/-- C15 (end-to-end scenario): from the empty registry "A" then "B" join "r1": "A" is host and
flagged, "B" is not. The `video-url-change` of "A" with url "x" emits `video-url-changed` with
url "x", not playing, time 0 to every socket of "r1", whose members are "A" and "B". The
`video-play` at 5 of "B" emits `video-play` at 5 to the sockets of "r1" other than "B". The
`disconnect` of "A" emits `user-left` with `userId` "A" and `newHost` "B" to the others of
"r1" and leaves "B" alone, flagged, with the host pointer on "B". The `disconnect` of "B"
leaves the registry empty. -/
theorem C15_two_member_scenario :
    ((run [] [joinA, joinB]).get "r1").map
        (fun room => (room.host, room.users.map (fun e => (e.1, e.2.isHost)))) =
      some (some "A", [("A", true), ("B", false)]) ∧
    (handle urlA.env urlA.sender urlA.event (run [] [joinA, joinB])).2 =
      [Effect.emit (Scope.everyone "r1")
        (OutEvent.videoUrlChanged
          { url := "x", playing := false, currentTime := 0, lastUpdate := 2000 })] ∧
    ((run [] [joinA, joinB, urlA]).get "r1").map
        (fun room => (room.videoState.url, room.users.keys)) = some ("x", ["A", "B"]) ∧
    (handle playB.env playB.sender playB.event (run [] [joinA, joinB, urlA])).2 =
      [Effect.emit (Scope.others "r1" "B") (OutEvent.videoPlay 5)] ∧
    (handle leaveA.env leaveA.sender leaveA.event (run [] [joinA, joinB, urlA, playB])).2 =
      [Effect.emit (Scope.others "r1" "A") (OutEvent.userLeft "A" (some "B"))] ∧
    ((run [] [joinA, joinB, urlA, playB, leaveA]).get "r1").map
        (fun room => (room.host, room.users.map (fun e => (e.1, e.2.isHost)))) =
      some (some "B", [("B", true)]) ∧
    (handle leaveB.env leaveB.sender leaveB.event
        (run [] [joinA, joinB, urlA, playB, leaveA])).2 =
      [Effect.emit (Scope.others "r1" "B") (OutEvent.userLeft "B" (some "B"))] ∧
    run [] [joinA, joinB, urlA, playB, leaveA, leaveB] = [] ∧
    (run [] [joinA, joinB, urlA, playB, leaveA, leaveB]).get "r1" = none :=
  ⟨by decide!, by decide!, by decide!, by decide!, by decide!, by decide!, by decide!,
    by decide!, by decide!⟩

end WatchParty

/-! ## `addUser` and `toggle-mic` -/

namespace WatchParty

/-! ### The binary64 product of a draw and the palette length -/

/-- With enough fuel, `bitLength` is the number of binary digits of a positive number. -/
theorem bitLength_spec : ∀ (fuel n : Nat), 0 < n → n ≤ fuel →
    1 ≤ bitLength fuel n ∧ 2 ^ (bitLength fuel n - 1) ≤ n ∧ n < 2 ^ bitLength fuel n := by
  intro fuel
  induction fuel with
  | zero => intro n h0 h1; omega
  | succ fuel ih =>
    intro n h0 h1
    have hn : ¬ n = 0 := by omega
    simp only [bitLength, if_neg hn]
    by_cases h2 : n / 2 = 0
    · have hb : bitLength fuel (n / 2) = 0 := by
        rw [h2]
        cases fuel <;> simp [bitLength]
      rw [hb]
      have : n = 1 := by omega
      subst this
      simp
    · obtain ⟨i1, i2, i3⟩ := ih (n / 2) (by omega) (by omega)
      refine ⟨by omega, ?_, ?_⟩
      · have hpow : 2 ^ (bitLength fuel (n / 2) + 1 - 1) = 2 * 2 ^ (bitLength fuel (n / 2) - 1) := by
          have : bitLength fuel (n / 2) + 1 - 1 = (bitLength fuel (n / 2) - 1) + 1 := by omega
          rw [this, pow_succ]; ring
        rw [hpow]
        omega
      · rw [pow_succ]
        omega

theorem roughExponent_bounds {x : ℚ} (hx : 0 < x) :
    (2 : ℚ) ^ (roughExponent x - 1) ≤ x ∧ x < (2 : ℚ) ^ (roughExponent x + 1) := by
  have hnum : 0 < x.num := Rat.num_pos.2 hx
  have hp : 0 < x.num.natAbs := Int.natAbs_pos.2 (ne_of_gt hnum)
  have hq : 0 < x.den := x.den_pos
  obtain ⟨p1, p2, p3⟩ := bitLength_spec x.num.natAbs x.num.natAbs hp (le_refl _)
  obtain ⟨q1, q2, q3⟩ := bitLength_spec x.den x.den hq (le_refl _)
  have hxeq : x = (x.num.natAbs : ℚ) / (x.den : ℚ) := by
    have h2 : (x.num.natAbs : ℚ) = (x.num : ℚ) := by
      rw [Nat.cast_natAbs, abs_of_pos hnum]
    rw [h2]
    exact (Rat.num_div_den x).symm
  have hqpos : (0 : ℚ) < (x.den : ℚ) := by exact_mod_cast hq
  unfold roughExponent
  generalize bitLength x.num.natAbs x.num.natAbs = bp at p1 p2 p3
  generalize bitLength x.den x.den = bq at q1 q2 q3
  generalize x.num.natAbs = p at hxeq p2 p3 hp
  generalize x.den = q at hxeq q2 q3 hq hqpos
  constructor
  · have e1 : (bp : ℤ) - (bq : ℤ) - 1 = ((bp - 1 : ℕ) : ℤ) - ((bq : ℕ) : ℤ) := by omega
    rw [e1, zpow_sub₀ (two_ne_zero), zpow_natCast, zpow_natCast, hxeq,
      div_le_div_iff₀ (by positivity) hqpos]
    have hnat : 2 ^ (bp - 1) * q ≤ p * 2 ^ bq :=
      Nat.mul_le_mul p2 (le_of_lt q3)
    exact_mod_cast hnat
  · have e1 : (bp : ℤ) - (bq : ℤ) + 1 = ((bp : ℕ) : ℤ) - ((bq - 1 : ℕ) : ℤ) := by omega
    rw [e1, zpow_sub₀ (two_ne_zero), zpow_natCast, zpow_natCast, hxeq,
      div_lt_div_iff₀ hqpos (by positivity)]
    have hnat : p * 2 ^ (bq - 1) < 2 ^ bp * q :=
      Nat.mul_lt_mul_of_lt_of_le p3 q2 (by positivity)
    exact_mod_cast hnat

/-- The binary exponent of a positive `x` brackets it between consecutive powers of two. -/
theorem binaryExponent_spec {x : ℚ} (hx : 0 < x) :
    (2 : ℚ) ^ binaryExponent x ≤ x ∧ x < (2 : ℚ) ^ (binaryExponent x + 1) := by
  obtain ⟨hlo, hhi⟩ := roughExponent_bounds hx
  unfold binaryExponent
  rw [abs_of_pos hx]
  by_cases h : (2 : ℚ) ^ roughExponent x ≤ x
  · rw [if_pos h]
    exact ⟨h, hhi⟩
  · rw [if_neg h]
    refine ⟨hlo, ?_⟩
    rw [sub_add_cancel]
    exact lt_of_not_le h

theorem roundHalfEven_le {y : ℚ} {N : ℤ} (h : y < (N : ℚ) + 1 / 2) : roundHalfEven y ≤ N := by
  have hfl : Int.floor y ≤ N := by
    have : Int.floor y < N + 1 := by
      rw [Int.floor_lt]
      push_cast
      linarith
    omega
  have hup : ¬ y - (Int.floor y : ℚ) < 1 / 2 → Int.floor y + 1 ≤ N := by
    intro hc
    have h2 : ((Int.floor y : ℤ) : ℚ) < (N : ℚ) := by linarith
    have h3 : Int.floor y < N := by exact_mod_cast h2
    omega
  unfold roundHalfEven
  split_ifs with c1 c2 c3
  · exact hfl
  · exact hup c1
  · exact hfl
  · exact hup c1

theorem roundHalfEven_nonneg {y : ℚ} (h : 0 ≤ y) : 0 ≤ roundHalfEven y := by
  have hfl : 0 ≤ Int.floor y := Int.floor_nonneg.2 h
  unfold roundHalfEven
  split_ifs <;> omega

theorem roundToDouble_nonneg {x : ℚ} (h : 0 ≤ x) : 0 ≤ roundToDouble x := by
  unfold roundToDouble
  split_ifs with h0
  · exact le_refl _
  · have hy : 0 ≤ x / (2 : ℚ) ^ ulpExponent x := by positivity
    have h1 : (0 : ℚ) ≤ (roundHalfEven (x / (2 : ℚ) ^ ulpExponent x) : ℚ) := by
      exact_mod_cast roundHalfEven_nonneg hy
    positivity

/-- The product of 5 and a number of at most `1 - 2^-53` rounds to a binary64 number below 5. -/
theorem roundToDouble_lt_five {x : ℚ} (h0 : 0 ≤ x) (h1 : x ≤ 5 - 5 / 2 ^ 53) :
    roundToDouble x < 5 := by
  unfold roundToDouble
  split_ifs with hz
  · norm_num
  · have hx : 0 < x := lt_of_le_of_ne h0 (Ne.symm hz)
    obtain ⟨hlo, hhi⟩ := binaryExponent_spec hx
    by_cases h4 : x < 4
    · -- below 4 the nearest binary64 number is at most 4
      have he : binaryExponent x < 2 := by
        by_contra hc
        have : (2 : ℚ) ^ (2 : ℤ) ≤ (2 : ℚ) ^ binaryExponent x :=
          zpow_le_zpow_right₀ (by norm_num) (by omega)
        norm_num at this
        linarith
      have hE : ulpExponent x ≤ 2 := by
        unfold ulpExponent
        omega
      obtain ⟨n, hn⟩ : ∃ n : ℕ, (2 : ℤ) - ulpExponent x = n :=
        ⟨((2 : ℤ) - ulpExponent x).toNat, by omega⟩
      have hpow : (4 : ℚ) = (2 : ℚ) ^ n * (2 : ℚ) ^ ulpExponent x := by
        rw [← zpow_natCast, ← zpow_add₀ (two_ne_zero), ← hn]
        norm_num
      have hpos : (0 : ℚ) < (2 : ℚ) ^ ulpExponent x := by positivity
      have hy : x / (2 : ℚ) ^ ulpExponent x < (((2 ^ n : ℕ) : ℤ) : ℚ) + 1 / 2 := by
        rw [div_lt_iff₀ hpos]
        push_cast
        nlinarith
      have hr := roundHalfEven_le hy
      have hr' : (roundHalfEven (x / (2 : ℚ) ^ ulpExponent x) : ℚ) ≤ (2 : ℚ) ^ n := by
        exact_mod_cast hr
      calc (roundHalfEven (x / (2 : ℚ) ^ ulpExponent x) : ℚ) * (2 : ℚ) ^ ulpExponent x
          ≤ (2 : ℚ) ^ n * (2 : ℚ) ^ ulpExponent x :=
            mul_le_mul_of_nonneg_right hr' (le_of_lt hpos)
        _ = 4 := hpow.symm
        _ < 5 := by norm_num
    · -- between 4 and 5 - 5/2^53 the unit in the last place is 2^-50
      have h4' : (4 : ℚ) ≤ x := le_of_not_lt h4
      have he : binaryExponent x = 2 := by
        have hlow : 2 < binaryExponent x + 1 := by
          by_contra hc
          have : (2 : ℚ) ^ (binaryExponent x + 1) ≤ (2 : ℚ) ^ (2 : ℤ) :=
            zpow_le_zpow_right₀ (by norm_num) (by omega)
          norm_num at this
          linarith
        have hup : binaryExponent x < 3 := by
          by_contra hc
          have : (2 : ℚ) ^ (3 : ℤ) ≤ (2 : ℚ) ^ binaryExponent x :=
            zpow_le_zpow_right₀ (by norm_num) (by omega)
          norm_num at this
          linarith
        omega
      have hE : ulpExponent x = -50 := by
        unfold ulpExponent
        rw [he]
        norm_num
      rw [hE]
      have hpow : (2 : ℚ) ^ (-50 : ℤ) = 1 / 2 ^ 50 := by
        rw [zpow_neg, zpow_ofNat]
        norm_num
      rw [hpow]
      have hy : x / (1 / 2 ^ 50) < ((5 * 2 ^ 50 - 1 : ℤ) : ℚ) + 1 / 2 := by
        rw [div_lt_iff₀ (by positivity)]
        push_cast
        norm_num at h1 ⊢
        linarith
      have hr := roundHalfEven_le hy
      have hr' : (roundHalfEven (x / (1 / 2 ^ 50)) : ℚ) ≤ 5 * 2 ^ 50 - 1 := by
        exact_mod_cast hr
      have : (roundHalfEven (x / (1 / 2 ^ 50)) : ℚ) * (1 / 2 ^ 50) ≤
          (5 * 2 ^ 50 - 1) * (1 / 2 ^ 50) :=
        mul_le_mul_of_nonneg_right hr' (by positivity)
      norm_num at this ⊢
      linarith

theorem IsDraw.nonneg {raw : ℚ} (h : IsDraw raw) : 0 ≤ raw := by
  obtain ⟨m, k, _, _, rfl⟩ := h
  positivity

/-- A binary64 number below 1 is at most `1 - 2^-53`. -/
theorem IsDraw.le_pred_one {raw : ℚ} (h : IsDraw raw) (h1 : raw < 1) :
    raw ≤ 1 - 1 / 2 ^ 53 := by
  obtain ⟨m, k, hm, _, rfl⟩ := h
  have hkpos : (0 : ℚ) < (2 : ℚ) ^ k := by positivity
  have hmk : (m : ℚ) < (2 : ℚ) ^ k := by
    rwa [div_lt_one hkpos] at h1
  have hmk' : m + 1 ≤ 2 ^ k := by
    have : m < 2 ^ k := by exact_mod_cast hmk
    omega
  have hA : (m : ℚ) + 1 ≤ (2 : ℚ) ^ 53 := by exact_mod_cast hm
  have hB : (m : ℚ) + 1 ≤ (2 : ℚ) ^ k := by exact_mod_cast hmk'
  rw [div_le_iff₀ hkpos]
  have h53 : (1 : ℚ) ≤ (2 : ℚ) ^ 53 := by norm_num
  generalize (2 : ℚ) ^ k = B at hkpos hmk hB
  have hm0 : (0 : ℚ) ≤ (m : ℚ) := by positivity
  rcases le_total B ((2 : ℚ) ^ 53) with hBA | hAB
  · have key : (m : ℚ) * 2 ^ 53 + B ≤ 2 ^ 53 * B := by
      nlinarith [mul_nonneg (show (0 : ℚ) ≤ 2 ^ 53 by positivity) (show (0 : ℚ) ≤ B - m - 1 by linarith)]
    have : (1 - 1 / (2 : ℚ) ^ 53) * B = (2 ^ 53 * B - B) / 2 ^ 53 := by
      field_simp
      ring
    rw [this, le_div_iff₀ (by positivity)]
    linarith
  · have key : (m : ℚ) * 2 ^ 53 + B ≤ 2 ^ 53 * B := by
      nlinarith [mul_nonneg (show (0 : ℚ) ≤ 2 ^ 53 - 1 - m by linarith) (show (0 : ℚ) ≤ 2 ^ 53 by positivity),
        mul_nonneg (show (0 : ℚ) ≤ 2 ^ 53 - 1 by linarith) (show (0 : ℚ) ≤ B - 2 ^ 53 by linarith)]
    have : (1 - 1 / (2 : ℚ) ^ 53) * B = (2 ^ 53 * B - B) / 2 ^ 53 := by
      field_simp
      ring
    rw [this, le_div_iff₀ (by positivity)]
    linarith

/-- For a binary64 draw below 1 the palette index lies between 0 and 4. -/
theorem avatarIndex_bounds {raw : ℚ} (hd : IsDraw raw) (h1 : raw < 1) :
    0 ≤ avatarIndex raw ∧ avatarIndex raw ≤ 4 := by
  have hlen : ((colors.length : ℕ) : ℚ) = 5 := by
    simp [colors]
  have h0 := hd.nonneg
  have hle := hd.le_pred_one h1
  have hx0 : 0 ≤ raw * 5 := by positivity
  have hx1 : raw * 5 ≤ 5 - 5 / 2 ^ 53 := by linarith
  unfold avatarIndex
  rw [hlen]
  constructor
  · exact Int.floor_nonneg.2 (roundToDouble_nonneg hx0)
  · have hlt : Int.floor (roundToDouble (raw * 5)) < 5 := by
      rw [Int.floor_lt]
      push_cast
      exact roundToDouble_lt_five hx0 hx1
    omega

/-- For a binary64 draw below 1 the avatar is one of the five palette colours. -/
theorem getRandomAvatar_mem {raw : ℚ} (hd : IsDraw raw) (h1 : raw < 1) :
    ∃ colour, Room.getRandomAvatar raw = some colour ∧ colour ∈ colors := by
  obtain ⟨hlo, hhi⟩ := avatarIndex_bounds hd h1
  have hneg : ¬ avatarIndex raw < 0 := by omega
  unfold Room.getRandomAvatar
  rw [if_neg hneg]
  have hn : (avatarIndex raw).toNat < 5 := by omega
  generalize (avatarIndex raw).toNat = n at hn
  interval_cases n <;> simp [colors]

/-- At the binary64 number `0.6` the binary64 product with 5 is exactly 3, so the index is 3,
whereas the exact product lies just below 3. -/
theorem avatarIndex_draw06 :
    IsDraw draw06 ∧ draw06 < 1 ∧ draw06 * 5 < 3 ∧ roundToDouble (draw06 * 5) = 3 ∧
    avatarIndex draw06 = 3 ∧ Room.getRandomAvatar draw06 = some "#f04747" := by
  refine ⟨⟨5404319552844595, 53, by norm_num, by norm_num, by norm_num [draw06]⟩,
    by norm_num [draw06], by norm_num [draw06], by decide!, by decide!, by decide!⟩

/-- C16 (postcondition of `addUser`): for every room, connection `c` (member or not), username
`u` and draw `raw` that is a binary64 number in `[0, 1)`, the palette index computed from the
binary64 product is within 0..4 and `addUser(c, u)` returns, and stores under key `c`, the
record with `id = c`, `username = u`, `micMuted = false`, `isHost` true exactly when the host
pointer was null before the call, and an avatar among the five palette colours. Afterwards the
host pointer is `c` if it was null and is unchanged otherwise; the member keys are unchanged
if `c` was a member and have `c` appended otherwise; every other member's record, the
videoState and the history are unchanged. -/
theorem C16_addUser_postcondition (room : Room) (c : ConnId) (u : String) (raw : ℚ)
    (hd : IsDraw raw) (h1 : raw < 1) :
    ∃ colour, colour ∈ colors ∧ Room.getRandomAvatar raw = some colour ∧
      0 ≤ avatarIndex raw ∧ avatarIndex raw ≤ 4 ∧
      (room.addUser c u raw).2 =
        some { id := c, username := u, isHost := decide (room.host = none), micMuted := false,
               avatar := some colour } ∧
      (room.addUser c u raw).1.users.get c =
        some { id := c, username := u, isHost := decide (room.host = none), micMuted := false,
               avatar := some colour } ∧
      (room.addUser c u raw).1.host = (if room.host = none then some c else room.host) ∧
      (c ∈ room.users.keys → (room.addUser c u raw).1.users.keys = room.users.keys) ∧
      (c ∉ room.users.keys → (room.addUser c u raw).1.users.keys = room.users.keys ++ [c]) ∧
      (∀ k, k ≠ c → (room.addUser c u raw).1.users.get k = room.users.get k) ∧
      (room.addUser c u raw).1.videoState = room.videoState ∧
      (room.addUser c u raw).1.messages = room.messages ∧
      (room.addUser c u raw).1.id = room.id := by
  obtain ⟨colour, hav, hmem⟩ := getRandomAvatar_mem hd h1
  obtain ⟨hlo, hhi⟩ := avatarIndex_bounds hd h1
  refine ⟨colour, hmem, hav, hlo, hhi, ?_, ?_, rfl, ?_, ?_, ?_, rfl, rfl, rfl⟩
  · simp only [Room.addUser, hav]
    exact JMap.get_set_self _ _ _
  · simp only [Room.addUser, hav]
    exact JMap.get_set_self _ _ _
  · intro hin
    exact JMap.keys_set_of_mem _ _ hin
  · intro hnin
    exact JMap.keys_set_of_not_mem _ _ hnin
  · intro k hk
    exact JMap.get_set_ne _ _ hk

/-- Witness for C16: "A", already the only member and host of `soloRoom`, is added again with
the draw `0.6`, where the binary64 product rounds up to 3: the avatar is the colour at
index 3. -/
theorem C16_addUser_postcondition_witness :
    IsDraw draw06 ∧ draw06 < 1 ∧
    avatarIndex draw06 = 3 ∧ Room.getRandomAvatar draw06 = some "#f04747" ∧
    (soloRoom.addUser "A" "ana" draw06).2 =
      some { id := "A", username := "ana", isHost := false, micMuted := false,
             avatar := some "#f04747" } ∧
    (soloRoom.addUser "A" "ana" draw06).1.users.keys = ["A"] ∧
    ∃ colour, colour ∈ colors ∧ Room.getRandomAvatar draw06 = some colour ∧
      0 ≤ avatarIndex draw06 ∧ avatarIndex draw06 ≤ 4 ∧
      (soloRoom.addUser "A" "ana" draw06).2 =
        some { id := "A", username := "ana", isHost := decide (soloRoom.host = none),
               micMuted := false, avatar := some colour } ∧
      (soloRoom.addUser "A" "ana" draw06).1.users.get "A" =
        some { id := "A", username := "ana", isHost := decide (soloRoom.host = none),
               micMuted := false, avatar := some colour } ∧
      (soloRoom.addUser "A" "ana" draw06).1.host =
        (if soloRoom.host = none then some "A" else soloRoom.host) ∧
      ("A" ∈ soloRoom.users.keys →
        (soloRoom.addUser "A" "ana" draw06).1.users.keys = soloRoom.users.keys) ∧
      ("A" ∉ soloRoom.users.keys →
        (soloRoom.addUser "A" "ana" draw06).1.users.keys = soloRoom.users.keys ++ ["A"]) ∧
      (∀ k, k ≠ "A" →
        (soloRoom.addUser "A" "ana" draw06).1.users.get k = soloRoom.users.get k) ∧
      (soloRoom.addUser "A" "ana" draw06).1.videoState = soloRoom.videoState ∧
      (soloRoom.addUser "A" "ana" draw06).1.messages = soloRoom.messages ∧
      (soloRoom.addUser "A" "ana" draw06).1.id = soloRoom.id :=
  ⟨⟨5404319552844595, 53, by norm_num, by norm_num, by norm_num [draw06]⟩,
    by norm_num [draw06], by decide!, by decide!, by decide!, by decide!,
    C16_addUser_postcondition soloRoom "A" "ana" draw06
      ⟨5404319552844595, 53, by norm_num, by norm_num, by norm_num [draw06]⟩
      (by norm_num [draw06])⟩

/-- C17 (`toggle-mic`): for a room stored under `roomId`, a member `s` of it and a boolean `m`,
the room stored afterwards has the record of `s` with `micMuted = m` and its other fields as
before, every other member's record, the member order, the host pointer, the videoState and
the history as before; every other room is as before; and the only transport call is one
`user-mic-toggle` with `userId = s` and `muted = m`, emitted to every socket of the room. -/
theorem C17_toggle_mic (env : Env) (s : ConnId) (roomId : RoomId) (m : Bool)
    (rooms : Registry) (room : Room) (user : User) (hg : rooms.get roomId = some room)
    (hs : room.users.get s = some user) :
    ∃ room1, (handle env s (Inbound.toggleMic roomId m) rooms).1.get roomId = some room1 ∧
      room1.users.get s = some { user with micMuted := m } ∧
      (∀ k, k ≠ s → room1.users.get k = room.users.get k) ∧
      room1.users.keys = room.users.keys ∧
      room1.host = room.host ∧ room1.videoState = room.videoState ∧
      room1.messages = room.messages ∧ room1.id = room.id ∧
      (∀ rid, rid ≠ roomId →
        (handle env s (Inbound.toggleMic roomId m) rooms).1.get rid = rooms.get rid) ∧
      JMap.keys (handle env s (Inbound.toggleMic roomId m) rooms).1 = JMap.keys rooms ∧
      (handle env s (Inbound.toggleMic roomId m) rooms).2 =
        [Effect.emit (Scope.everyone roomId) (OutEvent.userMicToggle s m)] := by
  have heq : handle env s (Inbound.toggleMic roomId m) rooms =
      (rooms.set roomId
          { room with users := room.users.modify s (fun u => { u with micMuted := m }) },
        [Effect.emit (Scope.everyone roomId) (OutEvent.userMicToggle s m)]) := by
    simp only [handle, onToggleMic, hg, hs]
  rw [heq]
  refine ⟨_, JMap.get_set_self _ _ _, ?_, ?_, ?_, rfl, rfl, rfl, rfl, ?_, ?_, rfl⟩
  · simp only
    rw [JMap.get_modify_self, hs]
    rfl
  · intro k hk
    exact JMap.get_modify_ne _ _ hk
  · exact JMap.keys_modify _ _ _
  · intro rid hrid
    exact JMap.get_set_ne _ _ hrid
  · exact keys_set_of_get hg _

/-- Witness for C17: "B", second member of room "r1", mutes its microphone. -/
theorem C17_toggle_mic_witness :
    (run [] [joinA, joinB]).get "r1" = some duoRoom ∧
    duoRoom.users.get "B" =
      some { id := "B", username := "ben", isHost := false, micMuted := false,
             avatar := some "#faa61a" } ∧
    ∃ room1, (handle env1 "B" (Inbound.toggleMic "r1" true) (run [] [joinA, joinB])).1.get "r1" =
        some room1 ∧
      room1.users.get "B" =
        some { id := "B", username := "ben", isHost := false, micMuted := true,
               avatar := some "#faa61a" } ∧
      (∀ k, k ≠ "B" → room1.users.get k = duoRoom.users.get k) ∧
      room1.users.keys = duoRoom.users.keys ∧
      room1.host = duoRoom.host ∧ room1.videoState = duoRoom.videoState ∧
      room1.messages = duoRoom.messages ∧ room1.id = duoRoom.id ∧
      (∀ rid, rid ≠ "r1" →
        (handle env1 "B" (Inbound.toggleMic "r1" true) (run [] [joinA, joinB])).1.get rid =
          (run [] [joinA, joinB]).get rid) ∧
      JMap.keys (handle env1 "B" (Inbound.toggleMic "r1" true) (run [] [joinA, joinB])).1 =
        JMap.keys (run [] [joinA, joinB]) ∧
      (handle env1 "B" (Inbound.toggleMic "r1" true) (run [] [joinA, joinB])).2 =
        [Effect.emit (Scope.everyone "r1") (OutEvent.userMicToggle "B" true)] :=
  ⟨by decide!, by decide!,
    C17_toggle_mic env1 "B" "r1" true (run [] [joinA, joinB]) duoRoom
      { id := "B", username := "ben", isHost := false, micMuted := false,
        avatar := some "#faa61a" } (by decide!) (by decide!)⟩

end WatchParty

/-! ## Room isolation, at most one host, removal of a non-host -/

namespace WatchParty

/-- The registry after a room-scoped event for room `r` is the registry before, or the
registry before with the entry under `r` set; every transport call concerns the sender alone
or the group `r`. -/
theorem handle_roomScoped (env : Env) (s : ConnId) (ev : Inbound) (rooms : Registry)
    (r : RoomId) (hr : ev.roomScoped = some r) :
    ((handle env s ev rooms).1 = rooms ∨ ∃ x, (handle env s ev rooms).1 = rooms.set r x) ∧
    ∀ eff, eff ∈ (handle env s ev rooms).2 → eff.group = none ∨ eff.group = some r := by
  cases ev with
  | joinRoom roomId username =>
    simp only [Inbound.roomScoped, Option.some.injEq] at hr
    subst hr
    simp only [handle]
    cases hg : rooms.get roomId with
    | none =>
      rw [onJoinRoom_of_none hg]
      refine ⟨Or.inr ⟨_, rfl⟩, ?_⟩
      intro eff hm
      simp only [List.mem_cons, List.mem_singleton, List.not_mem_nil, or_false] at hm
      rcases hm with h | h | h <;> subst h <;> simp [Effect.group, Scope.group]
    | some room =>
      rw [onJoinRoom_of_some hg]
      refine ⟨Or.inr ⟨_, rfl⟩, ?_⟩
      intro eff hm
      simp only [List.mem_cons, List.mem_singleton, List.not_mem_nil, or_false] at hm
      rcases hm with h | h | h <;> subst h <;> simp [Effect.group, Scope.group]
  | videoUrlChange roomId url =>
    simp only [Inbound.roomScoped, Option.some.injEq] at hr
    subst hr
    simp only [handle, onVideoUrlChange]
    cases hg : rooms.get roomId with
    | none => simp
    | some room =>
      simp only
      cases hu : room.users.get s with
      | none => simp [Effect.group, Scope.group]
      | some user =>
        simp only
        split
        · simp [Effect.group, Scope.group]
        · refine ⟨Or.inr ⟨_, rfl⟩, ?_⟩
          simp [Effect.group, Scope.group]
  | videoPlay roomId t =>
    simp only [Inbound.roomScoped, Option.some.injEq] at hr
    subst hr
    simp only [handle, onVideoPlay]
    cases hg : rooms.get roomId with
    | none => simp
    | some room =>
      refine ⟨Or.inr ⟨_, rfl⟩, ?_⟩
      simp [Effect.group, Scope.group]
  | videoPause roomId t =>
    simp only [Inbound.roomScoped, Option.some.injEq] at hr
    subst hr
    simp only [handle, onVideoPause]
    cases hg : rooms.get roomId with
    | none => simp
    | some room =>
      refine ⟨Or.inr ⟨_, rfl⟩, ?_⟩
      simp [Effect.group, Scope.group]
  | videoSeek roomId t =>
    simp only [Inbound.roomScoped, Option.some.injEq] at hr
    subst hr
    simp only [handle, onVideoSeek]
    cases hg : rooms.get roomId with
    | none => simp
    | some room =>
      refine ⟨Or.inr ⟨_, rfl⟩, ?_⟩
      simp [Effect.group, Scope.group]
  | chatMessage roomId message =>
    simp only [Inbound.roomScoped, Option.some.injEq] at hr
    subst hr
    simp only [handle, onChatMessage]
    cases hg : rooms.get roomId with
    | none => simp
    | some room =>
      simp only
      cases hu : room.users.get s with
      | none => simp
      | some user =>
        refine ⟨Or.inr ⟨_, rfl⟩, ?_⟩
        simp [Effect.group, Scope.group]
  | toggleMic roomId muted =>
    simp only [Inbound.roomScoped, Option.some.injEq] at hr
    subst hr
    simp only [handle, onToggleMic]
    cases hg : rooms.get roomId with
    | none => simp
    | some room =>
      simp only
      cases hu : room.users.get s with
      | none => simp
      | some user =>
        refine ⟨Or.inr ⟨_, rfl⟩, ?_⟩
        simp [Effect.group, Scope.group]
  | signal kind roomId target body => simp [Inbound.roomScoped] at hr
  | screenShareStopped roomId =>
    simp only [Inbound.roomScoped, Option.some.injEq] at hr
    subst hr
    simp [handle, onScreenShareStopped, Effect.group, Scope.group]
  | disconnect => simp [Inbound.roomScoped] at hr

/-- C18 (room isolation): for every registry and every room-scoped inbound event carrying
`roomId = r` (`join-room`, `video-url-change`, `video-play`, `video-pause`, `video-seek`,
`chat-message`, `toggle-mic`, `screen-share-stopped`), whatever the handler does, the entries
stored under ids other than `r` are the same, in the same order, after the event; looking up
any other id gives the same room; and every transport call concerns the sender alone or the
group `r`, never another room. -/
theorem C18_room_isolation (env : Env) (s : ConnId) (ev : Inbound) (rooms : Registry)
    (r : RoomId) (hr : ev.roomScoped = some r) :
    JMap.delete (handle env s ev rooms).1 r = JMap.delete rooms r ∧
    (∀ rid, rid ≠ r → (handle env s ev rooms).1.get rid = rooms.get rid) ∧
    (∀ eff, eff ∈ (handle env s ev rooms).2 → eff.group = none ∨ eff.group = some r) := by
  obtain ⟨hshape, heff⟩ := handle_roomScoped env s ev rooms r hr
  refine ⟨?_, ?_, heff⟩
  · rcases hshape with h | ⟨x, h⟩
    · rw [h]
    · rw [h, JMap.delete_set_self]
  · intro rid hrid
    rcases hshape with h | ⟨x, h⟩
    · rw [h]
    · rw [h, JMap.get_set_ne _ _ hrid]

/-- Witness for C18: with rooms "r1" and "r2" in the registry, "A" chats in "r1". -/
theorem C18_room_isolation_witness :
    (Inbound.chatMessage "r1" "hi").roomScoped = some "r1" ∧
    (JMap.delete
        (handle env1 "A" (Inbound.chatMessage "r1" "hi")
          (run [] [joinA, ⟨env1, "B", Inbound.joinRoom "r2" "ben"⟩])).1 "r1" =
      JMap.delete (run [] [joinA, ⟨env1, "B", Inbound.joinRoom "r2" "ben"⟩]) "r1" ∧
    (∀ rid, rid ≠ "r1" →
      (handle env1 "A" (Inbound.chatMessage "r1" "hi")
          (run [] [joinA, ⟨env1, "B", Inbound.joinRoom "r2" "ben"⟩])).1.get rid =
        (run [] [joinA, ⟨env1, "B", Inbound.joinRoom "r2" "ben"⟩]).get rid) ∧
    (∀ eff, eff ∈ (handle env1 "A" (Inbound.chatMessage "r1" "hi")
          (run [] [joinA, ⟨env1, "B", Inbound.joinRoom "r2" "ben"⟩])).2 →
      eff.group = none ∨ eff.group = some "r1")) :=
  ⟨rfl, C18_room_isolation env1 "A" (Inbound.chatMessage "r1" "hi")
    (run [] [joinA, ⟨env1, "B", Inbound.joinRoom "r2" "ben"⟩]) "r1" rfl⟩

/-- In a map with distinct keys whose flagged records all sit under one key, at most one
record is flagged. -/
theorem flagged_length_le_one (m : JMap ConnId User) (h : ConnId) (hwf : m.WF)
    (hfl : ∀ k u, (k, u) ∈ m → u.isHost = true → k = h) :
    ((JMap.values m).filter (fun u => u.isHost)).length ≤ 1 := by
  induction m with
  | nil => simp [JMap.values]
  | cons e rest ih =>
    obtain ⟨k, u⟩ := e
    have hnd : k ∉ JMap.keys rest ∧ (JMap.keys rest).Nodup := List.nodup_cons.1 hwf
    have ih' := ih hnd.2 (fun k' u' hm hf => hfl k' u' (List.mem_cons_of_mem _ hm) hf)
    by_cases hu : u.isHost = true
    · have hk : k = h := hfl k u (List.mem_cons_self _ _) hu
      have hnone : (JMap.values rest).filter (fun u => u.isHost) = [] := by
        rw [List.filter_eq_nil_iff]
        intro u' hu'
        obtain ⟨⟨k', u''⟩, hm, he⟩ := List.mem_map.1 hu'
        simp only at he
        subst he
        intro hf
        have hk' : k' = h := hfl k' u'' (List.mem_cons_of_mem _ hm) hf
        exact hnd.1 (by rw [hk, ← hk']; exact JMap.mem_keys_of_mem hm)
      have hval : JMap.values ((k, u) :: rest) = u :: JMap.values rest := rfl
      rw [hval, List.filter_cons_of_pos (by simpa using hu), hnone]
      simp
    · have hval : JMap.values ((k, u) :: rest) = u :: JMap.values rest := rfl
      rw [hval, List.filter_cons_of_neg (by simpa using hu)]
      exact ih'

/-- C19 (at most one host): in every reachable registry, every room has at most one member
whose `isHost` flag is set, and a member whose flag is set has its own id as key and is the
one the host pointer names; so whenever `video-url-change` for the room is not answered by
the host-only error, the sender is the connection the host pointer names. -/
theorem C19_at_most_one_flagged_host (rooms : Registry) (hreach : Reachable rooms)
    (rid : RoomId) (room : Room) (hm : (rid, room) ∈ rooms) :
    room.flaggedHosts.length ≤ 1 ∧
    (∀ k u, (k, u) ∈ room.users → u.isHost = true → u.id = k ∧ room.host = some u.id) ∧
    (∀ s user, room.users.get s = some user → user.isHost = true → room.host = some s) ∧
    (∀ env s url,
      (handle env s (Inbound.videoUrlChange rid url) rooms).2 ≠
        [Effect.emit (Scope.self s) (OutEvent.error hostOnlyMessage)] →
      room.host = some s) := by
  have hinv := reachable_inv hreach
  have hr := (hinv.rooms_ok rid room hm).1
  have hg : rooms.get rid = some room := JMap.get_of_mem hinv.wf hm
  obtain ⟨h, hhost, _⟩ := hr.host_mem
  refine ⟨?_, ?_, ?_, ?_⟩
  · refine flagged_length_le_one room.users h hr.wf ?_
    intro k u hku hf
    have := hr.flags k u hku hf
    rw [hhost] at this
    exact (Option.some.inj this).symm
  · intro k u hku hf
    have hid := hr.ids k u hku
    exact ⟨hid, by rw [hid]; exact hr.flags k u hku hf⟩
  · intro s user hs hf
    exact hr.flags s user (JMap.mem_of_get hs) hf
  · intro env s url hne
    simp only [handle, onVideoUrlChange, hg] at hne
    cases hu : room.users.get s with
    | none =>
      rw [hu] at hne
      exact absurd rfl hne
    | some user =>
      rw [hu] at hne
      simp only at hne
      cases hf : user.isHost with
      | false =>
        rw [hf] at hne
        exact absurd rfl hne
      | true => exact hr.flags s user (JMap.mem_of_get hu) hf

/-- Witness for C19 at the registry reached when "A" and "B" have joined "r1" and "B" has
joined once more: "A" is the one flagged member, sits under its own id, is the one the host
pointer names, and its `video-url-change` is not answered by the host-only error. -/
theorem C19_at_most_one_flagged_host_witness :
    Reachable (run [] [joinA, joinB, rejoinB]) ∧
    ("r1", duoRoom) ∈ run [] [joinA, joinB, rejoinB] ∧
    duoRoom.flaggedHosts = [hostRecordA] ∧
    duoRoom.flaggedHosts.length ≤ 1 ∧
    (("A", hostRecordA) ∈ duoRoom.users ∧ hostRecordA.isHost = true ∧
      hostRecordA.id = "A" ∧ duoRoom.host = some hostRecordA.id) ∧
    (duoRoom.users.get "A" = some hostRecordA ∧ duoRoom.host = some "A") ∧
    ((handle env1 "A" (Inbound.videoUrlChange "r1" "x") (run [] [joinA, joinB, rejoinB])).2 ≠
        [Effect.emit (Scope.self "A") (OutEvent.error hostOnlyMessage)] ∧
      duoRoom.host = some "A") :=
  ⟨reachable_run Reachable.init _, by decide!, by decide!,
    (C19_at_most_one_flagged_host (run [] [joinA, joinB, rejoinB])
      (reachable_run Reachable.init _) "r1" duoRoom (by decide!)).1,
    ⟨by decide!, rfl,
      ((C19_at_most_one_flagged_host (run [] [joinA, joinB, rejoinB])
        (reachable_run Reachable.init _) "r1" duoRoom (by decide!)).2.1
          "A" hostRecordA (by decide!) rfl).1,
      ((C19_at_most_one_flagged_host (run [] [joinA, joinB, rejoinB])
        (reachable_run Reachable.init _) "r1" duoRoom (by decide!)).2.1
          "A" hostRecordA (by decide!) rfl).2⟩,
    ⟨by decide!,
      (C19_at_most_one_flagged_host (run [] [joinA, joinB, rejoinB])
        (reachable_run Reachable.init _) "r1" duoRoom (by decide!)).2.2.1
          "A" hostRecordA (by decide!) rfl⟩,
    ⟨by decide!,
      (C19_at_most_one_flagged_host (run [] [joinA, joinB, rejoinB])
        (reachable_run Reachable.init _) "r1" duoRoom (by decide!)).2.2.2
          env1 "A" "x" (by decide!)⟩⟩

/-- C20 (removing a non-host is a pure deletion): for every room and every member `connId`
that the host pointer does not name, `removeUser(connId)` returns the room with only the
entry of `connId` deleted: the remaining keys keep their order, every remaining record is
unchanged, and the host pointer, the videoState and the history are as before. So for a
registry entry holding such a room, the `disconnect` of `connId` emits `user-left` for that
room with `newHost` equal to the host pointer from before the removal. -/
theorem C20_removeUser_non_host (room : Room) (connId : ConnId)
    (hmem : room.users.has connId = true) (hnh : room.host ≠ some connId) :
    room.removeUser connId = { room with users := room.users.delete connId } ∧
    (room.removeUser connId).users.keys =
      room.users.keys.filter (fun k => decide (k ≠ connId)) ∧
    (room.removeUser connId).users.get connId = none ∧
    (∀ k, k ≠ connId → (room.removeUser connId).users.get k = room.users.get k) ∧
    (room.removeUser connId).host = room.host ∧
    (room.removeUser connId).videoState = room.videoState ∧
    (room.removeUser connId).messages = room.messages ∧
    (∀ env rooms rid, (rid, room) ∈ rooms →
      Effect.emit (Scope.others rid connId) (OutEvent.userLeft connId room.host) ∈
        (handle env connId Inbound.disconnect rooms).2) := by
  have hne : ¬ (room.host = some connId ∧ JMap.size (room.users.delete connId) > 0) :=
    fun hc => hnh hc.1
  have heq : room.removeUser connId = { room with users := room.users.delete connId } := by
    unfold Room.removeUser
    simp only
    rw [if_neg hne]
  refine ⟨heq, ?_, ?_, ?_, ?_, ?_, ?_, ?_⟩
  · rw [heq]; exact JMap.keys_delete _ _
  · rw [heq, JMap.get_eq_none_iff]; exact JMap.not_mem_keys_delete _ _
  · intro k hk
    rw [heq]; exact JMap.get_delete_ne _ hk
  · rw [heq]
  · rw [heq]
  · rw [heq]
  · intro env rooms rid hin
    have hh : (handle env connId Inbound.disconnect rooms).2 =
        (onDisconnect connId rooms).2 := rfl
    rw [hh, onDisconnect_snd, List.mem_map]
    refine ⟨(rid, room), List.mem_filter.2 ⟨hin, hmem⟩, ?_⟩
    simp only [leaveEffect]
    rw [heq]

/-- Witness for C20: "B", member but not host of `duoRoom`, is removed. -/
theorem C20_removeUser_non_host_witness :
    duoRoom.users.has "B" = true ∧ duoRoom.host ≠ some "B" ∧
    (duoRoom.removeUser "B" = { duoRoom with users := duoRoom.users.delete "B" } ∧
    (duoRoom.removeUser "B").users.keys =
      duoRoom.users.keys.filter (fun k => decide (k ≠ "B")) ∧
    (duoRoom.removeUser "B").users.get "B" = none ∧
    (∀ k, k ≠ "B" → (duoRoom.removeUser "B").users.get k = duoRoom.users.get k) ∧
    (duoRoom.removeUser "B").host = duoRoom.host ∧
    (duoRoom.removeUser "B").videoState = duoRoom.videoState ∧
    (duoRoom.removeUser "B").messages = duoRoom.messages ∧
    (∀ env rooms rid, (rid, duoRoom) ∈ rooms →
      Effect.emit (Scope.others rid "B") (OutEvent.userLeft "B" duoRoom.host) ∈
        (handle env "B" Inbound.disconnect rooms).2)) :=
  ⟨by decide!, by decide!, C20_removeUser_non_host duoRoom "B" (by decide!) (by decide!)⟩

end WatchParty
